import Mathlib

/-!
Verification of the page-splitting routine of `scripts/split_llms_pages.py`.

The script splits one raw documentation text into page records using two
regex-based strategies:

  Strategy A (`split_with_url_pattern`): the multiline regex
  `^# (.+)$\nSource: (https?://[^\n]+)` is matched with `finditer`; each
  match yields a page whose content is the text slice from this match's
  end to the next match's start (or end of text), stripped.

  Strategy B (`split_with_header_pattern`): code-fence regions (delimited
  by triple backticks, matched non-greedily) are first rewritten by
  `neutralize_code_block_headers`, which replaces every line start `# `
  inside a fence with `### `; then the multiline regex `^# (.+)$` is
  matched against the rewritten text and pages are sliced out of the
  rewritten text.

Texts are modelled as `List Char`; regex matching is modelled by explicit
position scans.  For both page patterns, two distinct candidate match
positions are always separated by more than one full match (proved below
as the lemmas `noOverlapA` / `noOverlapB`), so scanning every candidate
line start is exactly Python's non-overlapping left-to-right `finditer`.
-/

/-- The backtick character, written by code point to keep source plain. -/
def btick : Char := Char.ofNat 96

/-- Whitespace test used to model Python `str.strip()` on the ASCII texts
at hand: space, tab, newline, carriage return, vertical tab, form feed. -/
def isPySpace (c : Char) : Bool :=
  c == ' ' || c == '\t' || c == '\n' || c == '\r' ||
    c == Char.ofNat 11 || c == Char.ofNat 12

/-- Python `str.strip()`: drop whitespace from both ends. -/
def stripL (l : List Char) : List Char :=
  ((l.dropWhile isPySpace).reverse.dropWhile isPySpace).reverse

/-- Leading whitespace removed by `stripL`. -/
def wsHead (l : List Char) : List Char := l.takeWhile isPySpace

/-- Trailing whitespace removed by `stripL`. -/
def wsTail (l : List Char) : List Char :=
  ((l.dropWhile isPySpace).reverse.takeWhile isPySpace).reverse

/-- The slice `s[a:b]` of Python. -/
def sliceL (s : List Char) (a b : Nat) : List Char := (s.drop a).take (b - a)

/-- The rest of the line of `s` that starts at position `p`: all characters
from `p` up to (excluding) the next newline or the end of text.  This is
what the greedy groups `(.+)` and `[^\n]+` of the patterns capture. -/
def restLine (s : List Char) (p : Nat) : List Char :=
  (s.drop p).takeWhile (fun c => decide (c ≠ '\n'))

/-- Position `p` is a line start of `s`: start of text or right after a
newline.  This is where the multiline anchor of the patterns matches. -/
def lineStartB (s : List Char) (p : Nat) : Bool :=
  decide (p = 0) || decide (s[p - 1]? = some '\n')

/-- Bool test that `pre` is an initial segment of `s`. -/
def startsWith (pre s : List Char) : Bool := decide (s.take pre.length = pre)

/-- One output page record, as built by both splitting functions. -/
structure Page where
  title : List Char
  source_url : Option (List Char)
  content : List Char
  content_length : Nat
deriving DecidableEq, Repr

/-- Consecutive pairing used for content extraction: each match start is
paired with the next match's start, the last one with `len`.  Models
`matches[i + 1].start() if i + 1 < len(matches) else len(content)`. -/
def pairsOf (ms : List Nat) (len : Nat) : List (Nat × Nat) :=
  ms.zip (ms.drop 1 ++ [len])

/-- The literal `\nSource: ` that must follow the title line in
`PAGE_PATTERN_WITH_URL`. -/
def srcTag : List Char := "\nSource: ".toList

/-- The URL group `https?://[^\n]+` of `PAGE_PATTERN_WITH_URL`, applied to
the rest of the `Source:` line: an `http://` or `https://` scheme followed
by at least one more character. -/
def isUrlRest (u : List Char) : Bool :=
  (startsWith ("http://".toList) u && decide (7 < u.length)) ||
    (startsWith ("https://".toList) u && decide (8 < u.length))

/-- A match of `PAGE_PATTERN_WITH_URL = ^# (.+)$\nSource: (https?://[^\n]+)`
begins at position `p` of `s`: `p` is a line start, the line reads
`# ` followed by a nonempty title (group 1, the rest of the line), and the
next line is `Source: ` followed by a well-formed URL (group 2, the rest
of that line). -/
def isAStart (s : List Char) (p : Nat) : Bool :=
  lineStartB s p && startsWith ("# ".toList) (s.drop p) &&
    (decide (restLine s (p + 2) ≠ []) &&
      startsWith srcTag (s.drop (p + 2 + (restLine s (p + 2)).length)) &&
      isUrlRest (restLine s (p + 2 + (restLine s (p + 2)).length + 9)))

/-- All match start positions of `PAGE_PATTERN_WITH_URL` in `s`, in order. -/
def urlStarts (s : List Char) : List Nat :=
  (List.range s.length).filter (isAStart s)

/-- Group 1 (the title) of the Strategy A match starting at `p`. -/
def titleA (s : List Char) (p : Nat) : List Char := restLine s (p + 2)

/-- Group 2 (the URL) of the Strategy A match starting at `p`. -/
def urlA (s : List Char) (p : Nat) : List Char :=
  restLine s (p + 2 + (titleA s p).length + 9)

/-- `match.end()` for the Strategy A match starting at `p`: the end of the
`Source:` line. -/
def matchEndA (s : List Char) (p : Nat) : Nat :=
  p + 2 + (titleA s p).length + 9 + (urlA s p).length

/-- Page built from one Strategy A match: groups are stripped, the content
is the stripped slice from the match end to the next match start. -/
def mkPageA (s : List Char) (pr : Nat × Nat) : Page :=
  { title := stripL (titleA s pr.1)
    source_url := some (stripL (urlA s pr.1))
    content := stripL (sliceL s (matchEndA s pr.1) pr.2)
    content_length := (stripL (sliceL s (matchEndA s pr.1) pr.2)).length }

/-- `split_with_url_pattern` of the script. -/
def split_with_url_pattern (s : List Char) : List Page :=
  (pairsOf (urlStarts s) s.length).map (mkPageA s)

/-- The rewrite `re.sub(r'^# ', '### ', block, flags=re.MULTILINE)` applied
inside one code block, scanning left to right; the flag records whether the
scan position is a line start. -/
def subHash : Bool → List Char → List Char
  | _, [] => []
  | a, c :: rest =>
    if a && (c == '#') && (rest.head? == some ' ') then
      '#' :: '#' :: c :: subHash false rest
    else
      c :: subHash (c == '\n') rest

/-- Index of the first occurrence of three consecutive backticks. -/
def findTriple : List Char → Option Nat
  | [] => none
  | c :: rest =>
    if (c :: rest).take 3 = [btick, btick, btick] then some 0
    else (findTriple rest).map (· + 1)

/-- Decomposition of the text into the segments scanned by
`re.sub` with the non-greedy fence regex of three backticks, anything,
three backticks: a `true` segment is one matched fence block (opening
backticks, minimal middle, closing backticks), a `false` segment is one
unmatched character.  Concatenating the segments restores the text. -/
def fenceSplitAux : Nat → List Char → List (Bool × List Char)
  | 0, _ => []
  | _ + 1, [] => []
  | fuel + 1, c :: rest =>
    if (c :: rest).take 3 = [btick, btick, btick] then
      match findTriple (rest.drop 2) with
      | some q =>
          (true, (c :: rest).take (q + 6)) ::
            fenceSplitAux fuel ((c :: rest).drop (q + 6))
      | none => (false, [c]) :: fenceSplitAux fuel rest
    else (false, [c]) :: fenceSplitAux fuel rest

/-- The fence-scan decomposition, with enough fuel to consume the text. -/
def fenceSplit (l : List Char) : List (Bool × List Char) :=
  fenceSplitAux l.length l

/-- The replacement applied to one segment: fence blocks are rewritten by
`subHash`, text outside fences is kept. -/
def processSeg (sg : Bool × List Char) : List Char :=
  if sg.1 then subHash true sg.2 else sg.2

/-- `neutralize_code_block_headers` of the script. -/
def neutralize_code_block_headers (content : List Char) : List Char :=
  ((fenceSplit content).map processSeg).flatten

/-- A match of `PAGE_PATTERN_HEADER_ONLY = ^# (.+)$` begins at position `p`
of `s`. -/
def isBStart (s : List Char) (p : Nat) : Bool :=
  lineStartB s p && startsWith ("# ".toList) (s.drop p) &&
    decide (restLine s (p + 2) ≠ [])

/-- All match start positions of `PAGE_PATTERN_HEADER_ONLY` in `s`. -/
def hdrStarts (s : List Char) : List Nat :=
  (List.range s.length).filter (isBStart s)

/-- `match.end()` for the header-only match starting at `p`: the end of the
title line. -/
def matchEndB (s : List Char) (p : Nat) : Nat :=
  p + 2 + (restLine s (p + 2)).length

/-- Page built from one header-only match. -/
def mkPageB (s : List Char) (pr : Nat × Nat) : Page :=
  { title := stripL (restLine s (pr.1 + 2))
    source_url := none
    content := stripL (sliceL s (matchEndB s pr.1) pr.2)
    content_length := (stripL (sliceL s (matchEndB s pr.1) pr.2)).length }

/-- The header-only split applied to an already rewritten text. -/
def splitHeaderCore (s : List Char) : List Page :=
  (pairsOf (hdrStarts s) s.length).map (mkPageB s)

/-- `split_with_header_pattern` of the script: neutralize fences, then
match and slice against the rewritten text. -/
def split_with_header_pattern (content : List Char) : List Page :=
  splitHeaderCore (neutralize_code_block_headers content)

/-- Strategy selector, mirroring `use_header_only` of `process_source`. -/
def pagesOf (useHeaderOnly : Bool) (content : List Char) : List Page :=
  if useHeaderOnly then split_with_header_pattern content
  else split_with_url_pattern content

/-- The text the chosen strategy actually matches and slices: the raw
text for Strategy A, the neutralized text for Strategy B. -/
def splitText (useHeaderOnly : Bool) (content : List Char) : List Char :=
  if useHeaderOnly then neutralize_code_block_headers content else content

/-- The match starts the chosen strategy uses. -/
def startsOf (useHeaderOnly : Bool) (content : List Char) : List Nat :=
  if useHeaderOnly then hdrStarts (neutralize_code_block_headers content)
  else urlStarts content

/-- `match.end()` of the chosen strategy. -/
def matchEndOf (useHeaderOnly : Bool) (s : List Char) (p : Nat) : Nat :=
  if useHeaderOnly then matchEndB s p else matchEndA s p

/-- The status/error/page-count record returned by `process_source`. -/
structure ProcResult where
  status : List Char
  error : Option (List Char)
  page_count : Nat
deriving DecidableEq, Repr

/-- The pure core of `process_source`: the file content is a parameter,
filesystem access is outside the model.  Returns the result record
together with the page list the function writes out. -/
def process_content (content : List Char) (useHeaderOnly : Bool) :
    ProcResult × List Page :=
  let pages := pagesOf useHeaderOnly content
  if pages.isEmpty then
    ({ status := "failed".toList
       error := some ("No pages found - check regex pattern".toList)
       page_count := 0 }, [])
  else
    ({ status := "success".toList, error := none, page_count := pages.length },
      pages)

/-- Python `\w` on the ASCII texts at hand: letters, digits, underscore. -/
def isWordChar (c : Char) : Bool := c.isAlpha || c.isDigit || c == '_'

/-- `re.sub(r'\s+', '_', t)`: every maximal whitespace run becomes one
underscore. -/
def collapseWSAux : Nat → List Char → List Char
  | 0, _ => []
  | _ + 1, [] => []
  | fuel + 1, c :: rest =>
    if isPySpace c then '_' :: collapseWSAux fuel (rest.dropWhile isPySpace)
    else c :: collapseWSAux fuel rest

/-- The whitespace-run collapse, with enough fuel to consume the text. -/
def collapseWS (l : List Char) : List Char := collapseWSAux l.length l

/-- `safe_title` of `process_source`: keep word characters, whitespace and
hyphens, truncate to 50, strip, then collapse whitespace runs to
underscores. -/
def safeTitle (t : List Char) : List Char :=
  collapseWS (stripL ((t.filter
    (fun c => isWordChar c || isPySpace c || c == '-')).take 50))

/-- Decimal digit character. -/
def digitChar (d : Nat) : Char := Char.ofNat (48 + d % 10)

/-- Decimal digits of a positive number, most significant first. -/
def natDigitsAux : Nat → Nat → List Char
  | 0, _ => []
  | _ + 1, 0 => []
  | fuel + 1, n + 1 =>
    natDigitsAux fuel ((n + 1) / 10) ++ [digitChar ((n + 1) % 10)]

/-- Decimal digits of a positive number, most significant first. -/
def natDigits (n : Nat) : List Char := natDigitsAux n n

/-- Decimal notation of a number. -/
def toDecimal (n : Nat) : List Char := if n = 0 then ['0'] else natDigits n

/-- The format `{i:04d}`: the decimal digits, zero-padded to width four. -/
def pad4 (n : Nat) : List Char :=
  List.replicate (4 - (toDecimal n).length) '0' ++ toDecimal n

/-- The per-page file name `{i:04d}_{safe_title}.json` of `process_source`.
-/
def mkFilename (i : Nat) (title : List Char) : List Char :=
  pad4 i ++ '_' :: (safeTitle title ++ ".json".toList)


/-- Group 1 of the match at `p` under the chosen strategy. -/
def titleOf (uho : Bool) (content : List Char) (p : Nat) : List Char :=
  if uho then restLine (neutralize_code_block_headers content) (p + 2)
  else titleA content p

/-- The raw gap between a match's end and the next boundary (or the end
of the split text): `content[match.end : next_start]` before stripping. -/
def gapOf (uho : Bool) (s : List Char) (pr : Nat × Nat) : List Char :=
  sliceL s (matchEndOf uho s pr.1) pr.2

/-- The reconstruction the specification describes: per page, the matched
boundary text, then the whitespace trimmed from the front of the page
body, the page content, and the whitespace trimmed from its back, all
concatenated in order. -/
def reconOf (uho : Bool) (content : List Char) : List Char :=
  ((pairsOf (startsOf uho content) (splitText uho content).length).map
      (fun pr =>
        sliceL (splitText uho content) pr.1
            (matchEndOf uho (splitText uho content) pr.1) ++
          (wsHead (gapOf uho (splitText uho content) pr) ++
            (stripL (gapOf uho (splitText uho content) pr) ++
              wsTail (gapOf uho (splitText uho content) pr))))).flatten

/-- The splitting pass applied directly to an already prepared text:
Strategy A's splitter, or Strategy B's header matching without a second
neutralization. -/
def coreOf (uho : Bool) (s : List Char) : List Page :=
  if uho then splitHeaderCore s else split_with_url_pattern s

/-- The lines of a text, split at newline characters: `"a\nb"` has lines
`a` and `b`, a trailing newline yields a final empty line. -/
def linesOf : List Char → List (List Char)
  | [] => [[]]
  | c :: rest =>
    if c = '\n' then [] :: linesOf rest
    else (c :: (linesOf rest).headD []) :: (linesOf rest).tail

/-- The per-line effect of the code-block rewrite: a line beginning with
`# ` gains two leading hashes (`# x` becomes `### x`), any other line is
kept unchanged. -/
def demote (ln : List Char) : List Char :=
  if startsWith ("# ".toList) ln then '#' :: '#' :: ln else ln

/-- Three consecutive backticks (an occurrence of the fence token) at
position `i` of `l`. -/
def tripleAtB (l : List Char) (i : Nat) : Bool :=
  decide (l[i]? = some btick) && decide (l[i + 1]? = some btick) &&
    decide (l[i + 2]? = some btick)

/-- Spans `[start, stop)` of the rewritten fence blocks, in the coordinate
system of the rewritten (neutralized) text. -/
def spansAuxN : Nat → List (Bool × List Char) → List (Nat × Nat)
  | _, [] => []
  | pos, sg :: rest =>
    if sg.1 then
      (pos, pos + (processSeg sg).length) ::
        spansAuxN (pos + (processSeg sg).length) rest
    else spansAuxN (pos + (processSeg sg).length) rest

/-- The fence-block spans inside the neutralized text. -/
def blockSpansN (content : List Char) : List (Nat × Nat) :=
  spansAuxN 0 (fenceSplit content)

/-- Spans `[start, stop)` of the fence blocks in the coordinate system of
the original text. -/
def spansAuxO : Nat → List (Bool × List Char) → List (Nat × Nat)
  | _, [] => []
  | pos, sg :: rest =>
    if sg.1 then
      (pos, pos + sg.2.length) :: spansAuxO (pos + sg.2.length) rest
    else spansAuxO (pos + sg.2.length) rest

/-- The fence-block spans inside the original text. -/
def blockSpansO (content : List Char) : List (Nat × Nat) :=
  spansAuxO 0 (fenceSplit content)

/-- Well-formed fences: every occurrence of the triple-backtick token lies
inside a block found by the fence scan — each opening fence is matched by a
later closing fence and no stray fence token remains. -/
def wellFormedFences (content : List Char) : Bool :=
  (List.range content.length).all fun i =>
    !(tripleAtB content i) ||
      (blockSpansO content).any fun sp =>
        decide (sp.1 ≤ i) && decide (i + 3 ≤ sp.2)

/-! ### Basic facts about the decimal file-name prefix -/

/-- Decimal value of a digit character. -/
def dval (c : Char) : Nat := c.toNat - 48

/-- Decimal value of a digit string. -/
def valD (l : List Char) : Nat := l.foldl (fun a c => a * 10 + dval c) 0

theorem valD_append_digit (l : List Char) (c : Char) :
    valD (l ++ [c]) = valD l * 10 + dval c := by
  simp [valD, List.foldl_append]

theorem dval_digitChar (r : Nat) (h : r < 10) : dval (digitChar r) = r := by
  interval_cases r <;> decide

theorem valD_natDigitsAux (fuel n : Nat) (h : n ≤ fuel) :
    valD (natDigitsAux fuel n) = n := by
  induction fuel generalizing n with
  | zero =>
    interval_cases n
    simp [natDigitsAux, valD]
  | succ fuel ih =>
    match n with
    | 0 => simp [natDigitsAux, valD]
    | n + 1 =>
      have hdiv : (n + 1) / 10 ≤ fuel := by
        have := Nat.div_lt_self (Nat.succ_pos n) (by norm_num : 1 < 10)
        omega
      rw [natDigitsAux, valD_append_digit, ih _ hdiv,
        dval_digitChar _ (Nat.mod_lt _ (by norm_num))]
      omega

theorem valD_replicate_zero_append (k : Nat) (l : List Char) :
    valD (List.replicate k '0' ++ l) = valD l := by
  induction k with
  | zero => simp
  | succ k ih => simpa [List.replicate_succ, valD] using ih

theorem valD_pad4 (n : Nat) : valD (pad4 n) = n := by
  rw [pad4, valD_replicate_zero_append, toDecimal]
  by_cases h : n = 0
  · simp [h, valD, dval]
  · rw [if_neg h, natDigits, valD_natDigitsAux n n le_rfl]

theorem natDigitsAux_no_us (fuel n : Nat) :
    ∀ c ∈ natDigitsAux fuel n, c ≠ '_' := by
  induction fuel generalizing n with
  | zero => simp [natDigitsAux]
  | succ fuel ih =>
    match n with
    | 0 => simp [natDigitsAux]
    | n + 1 =>
      intro c hc
      rw [natDigitsAux] at hc
      rcases List.mem_append.1 hc with h | h
      · exact ih _ c h
      · have : c = digitChar ((n + 1) % 10) := by simpa using h
        subst this
        have hr : (n + 1) % 10 < 10 := Nat.mod_lt _ (by norm_num)
        revert hr
        generalize (n + 1) % 10 = r
        intro hr
        interval_cases r <;> decide

theorem pad4_no_us (n : Nat) : ∀ c ∈ pad4 n, c ≠ '_' := by
  intro c hc
  rcases List.mem_append.1 hc with h | h
  · have := List.eq_of_mem_replicate h
    subst this; decide
  · rw [toDecimal] at h
    by_cases h0 : n = 0
    · rw [if_pos h0] at h
      have : c = '0' := by simpa using h
      subst this; decide
    · rw [if_neg h0] at h
      exact natDigitsAux_no_us n n c h

theorem sep_append (a x b y : List Char) (ha : ∀ c ∈ a, c ≠ '_')
    (hb : ∀ c ∈ b, c ≠ '_') (h : a ++ '_' :: x = b ++ '_' :: y) : a = b := by
  induction a generalizing b with
  | nil =>
    cases b with
    | nil => rfl
    | cons d b' =>
      simp only [List.nil_append, List.cons_append, List.cons.injEq] at h
      exact absurd h.1.symm (hb d (by simp))
  | cons c a' ih =>
    cases b with
    | nil =>
      simp only [List.cons_append, List.nil_append, List.cons.injEq] at h
      exact absurd h.1 (ha c (by simp))
    | cons d b' =>
      simp only [List.cons_append, List.cons.injEq] at h
      rw [ih b' (fun e he => ha e (by simp [he]))
        (fun e he => hb e (by simp [he])) h.2, h.1]

/-- Claim C9: the per-page file names `{i:04d}_{safe_title}.json` written by
`process_source` are pairwise distinct for distinct sequence indices, no
matter what the two titles are — even when the titles coincide or sanitize
to the same string. -/
theorem claim_C9 (i j : Nat) (t u : List Char) (hij : i ≠ j) :
    mkFilename i t ≠ mkFilename j u := by
  intro h
  rw [mkFilename, mkFilename] at h
  exact hij (by
    have := sep_append _ _ _ _ (pad4_no_us i) (pad4_no_us j) h
    have hv := congrArg valD this
    rwa [valD_pad4, valD_pad4] at hv)

/-- Witness for C9 at a concrete collision candidate: indices 2 and 3 with
the same title sanitize to different names. -/
theorem claim_C9_witness :
    mkFilename 2 ("Intro".toList) ≠ mkFilename 3 ("Intro".toList) :=
  claim_C9 2 3 ("Intro".toList) ("Intro".toList) (by decide)

/-! ### Emptiness and failure reporting -/

theorem startsOf_nil_pages (uho : Bool) (content : List Char)
    (h : startsOf uho content = []) : pagesOf uho content = [] := by
  cases uho <;>
    simp_all [startsOf, pagesOf, split_with_url_pattern,
      split_with_header_pattern, splitHeaderCore, pairsOf]

/-- Claim C3: when the chosen strategy's pattern matches nowhere in a
non-empty input, the operation returns the explicit structured failure
record (status `failed`, the `No pages found` error message, zero pages)
and an empty page list — in particular not a single page holding the whole
input.  The model is a total function, so no exception is involved. -/
theorem claim_C3 (content : List Char) (uho : Bool) (_hne : content ≠ [])
    (h : startsOf uho content = []) :
    process_content content uho =
      ({ status := "failed".toList
         error := some ("No pages found - check regex pattern".toList)
         page_count := 0 }, []) := by
  have hp := startsOf_nil_pages uho content h
  simp [process_content, hp]

/-- Witness for C3: the failure example input of the specification,
`"no headers at all"`, under Strategy A. -/
theorem claim_C3_witness :
    ("no headers at all".toList ≠ ([] : List Char)) ∧
      process_content ("no headers at all".toList) false =
        ({ status := "failed".toList
           error := some ("No pages found - check regex pattern".toList)
           page_count := 0 }, []) :=
  ⟨by decide, claim_C3 ("no headers at all".toList) false (by decide) (by decide)⟩

/-! ### Per-page length bookkeeping -/

/-- Claim C7: under either strategy, every returned page's
`content_length` field equals the character count of its `content` field. -/
theorem claim_C7 (uho : Bool) (content : List Char) (page : Page)
    (h : page ∈ pagesOf uho content) :
    page.content_length = page.content.length := by
  cases uho <;>
    · simp only [pagesOf, Bool.false_eq_true, if_false, if_true,
        split_with_url_pattern, split_with_header_pattern, splitHeaderCore,
        List.mem_map] at h
      obtain ⟨pr, -, rfl⟩ := h
      rfl

/-- Witness for C7 on a concrete Strategy B input containing a fence. -/
theorem claim_C7_witness :
    (Page.mk ("T".toList) none ("x".toList) 1 ∈
        pagesOf true ("# T\nx".toList)) ∧
      (Page.mk ("T".toList) none ("x".toList) 1).content_length =
        (Page.mk ("T".toList) none ("x".toList) 1).content.length :=
  ⟨by decide, claim_C7 true ("# T\nx".toList) _ (by decide)⟩

/-- Claim C6: the end-to-end Strategy A example of the specification:
two pages with the stated titles, URLs and trimmed contents. -/
theorem claim_C6 :
    split_with_url_pattern
        (("# Intro\nSource: https://example.com/a\nHello world.\n" ++
          "# Next\nSource: https://example.com/b\nBye.\n").toList) =
      [{ title := "Intro".toList
         source_url := some ("https://example.com/a".toList)
         content := "Hello world.".toList
         content_length := 12 },
       { title := "Next".toList
         source_url := some ("https://example.com/b".toList)
         content := "Bye.".toList
         content_length := 4 }] := by
  decide

/-! ### Toolkit: takeWhile, dropWhile, drops and character access -/

theorem takeWhile_some {P : Char → Bool} {l : List Char} {i : Nat} {c : Char}
    (h : (l.takeWhile P)[i]? = some c) : l[i]? = some c ∧ P c = true := by
  induction l generalizing i with
  | nil => simp [List.takeWhile] at h
  | cons x xs ih =>
    rw [List.takeWhile_cons] at h
    by_cases hP : P x = true
    · rw [if_pos hP] at h
      match i with
      | 0 => simp_all
      | i + 1 =>
        simp only [List.getElem?_cons_succ] at h ⊢
        exact ih h
    · simp [hP] at h

theorem takeWhile_all_stop {P : Char → Bool} {t z : List Char} {c₀ : Char}
    (ht : ∀ c ∈ t, P c = true) (hc : P c₀ = false) :
    (t ++ c₀ :: z).takeWhile P = t := by
  induction t with
  | nil => simp [List.takeWhile_cons, hc]
  | cons x xs ih =>
    rw [List.cons_append, List.takeWhile_cons, if_pos (ht x (by simp)),
      ih (fun c hcm => ht c (by simp [hcm]))]

theorem head?_dropWhile {P : Char → Bool} {l : List Char} {c : Char}
    (h : (l.dropWhile P).head? = some c) : P c = false := by
  induction l with
  | nil => simp [List.dropWhile] at h
  | cons x xs ih =>
    rw [List.dropWhile_cons] at h
    by_cases hP : P x = true
    · rw [if_pos hP] at h; exact ih h
    · rw [if_neg hP] at h
      simp only [List.head?_cons, Option.some.injEq] at h
      subst h
      exact Bool.eq_false_iff.2 hP

theorem startsWith_decomp {pre s : List Char} (h : startsWith pre s = true) :
    s = pre ++ s.drop pre.length := by
  have ht : s.take pre.length = pre := by
    simpa [startsWith] using h
  conv_lhs => rw [← List.take_append_drop pre.length s]
  rw [ht]

theorem startsWith_of_append (pre rest : List Char) :
    startsWith pre (pre ++ rest) = true := by
  simp [startsWith, List.take_left]

theorem drop_add (s : List Char) (a b : Nat) :
    s.drop (a + b) = (s.drop a).drop b := by
  rw [List.drop_drop]

theorem restLine_some {s : List Char} {p i : Nat} {c : Char}
    (h : (restLine s p)[i]? = some c) : s[p + i]? = some c ∧ c ≠ '\n' := by
  have := takeWhile_some h
  rw [List.getElem?_drop] at this
  exact ⟨this.1, by simpa using this.2⟩

theorem restLine_no_nl {s : List Char} {p : Nat} {c : Char}
    (h : c ∈ restLine s p) : c ≠ '\n' := by
  simpa using List.mem_takeWhile_imp h

theorem restLine_of_append {s : List Char} {p : Nat} {t z : List Char}
    (hd : s.drop p = t ++ '\n' :: z) (ht : '\n' ∉ t) :
    restLine s p = t := by
  rw [restLine, hd]
  exact takeWhile_all_stop
    (fun c hc => by simp; exact fun e => ht (e ▸ hc)) (by simp)

theorem restLine_of_all {s : List Char} {p : Nat} {t : List Char}
    (hd : s.drop p = t) (ht : '\n' ∉ t) : restLine s p = t := by
  rw [restLine, hd]
  exact List.takeWhile_eq_self_iff.2
    (fun c hc => by simp; exact fun e => ht (e ▸ hc))

/-! ### Membership of a start in the extraction pairs -/

theorem mem_pairsOf (len : Nat) {ms : List Nat} {p : Nat} (hp : p ∈ ms) :
    ∃ nxt, (p, nxt) ∈ pairsOf ms len := by
  obtain ⟨i, hi, rfl⟩ := List.mem_iff_getElem.1 hp
  have hlen : (ms.drop 1 ++ [len]).length = ms.length := by
    have h1 : 1 ≤ ms.length := List.length_pos_of_mem hp
    simp [List.length_drop]
    omega
  have hiz : i < (ms.zip (ms.drop 1 ++ [len])).length := by
    rw [List.length_zip, hlen]
    simpa using hi
  have hib : i < (ms.drop 1 ++ [len]).length := by
    rw [hlen]
    exact hi
  refine ⟨(ms.drop 1 ++ [len])[i], ?_⟩
  have hz := List.getElem_zip (h := hiz)
  rw [pairsOf, ← hz]
  exact List.getElem_mem hiz

/-! ### Empty titles are accepted -/

theorem stripL_of_all_space {l : List Char} (h : ∀ c ∈ l, isPySpace c = true) :
    stripL l = [] := by
  have h1 : l.dropWhile isPySpace = [] := List.dropWhile_eq_nil_iff.2 h
  simp [stripL, h1]

/-- Claim C8: a boundary whose matched title capture is whitespace-only is
still turned into a page — with the empty string as its title — and the
operation still reports success rather than a failure. -/
theorem claim_C8 (uho : Bool) (content : List Char) (p : Nat)
    (hp : p ∈ startsOf uho content)
    (hsp : (titleOf uho content p).all isPySpace = true) :
    (∃ page ∈ pagesOf uho content, page.title = []) ∧
      (process_content content uho).1.status = "success".toList := by
  have hsp' := List.all_eq_true.1 hsp
  have hpage : ∃ page ∈ pagesOf uho content, page.title = [] := by
    cases uho with
    | false =>
      simp only [startsOf, Bool.false_eq_true, if_false] at hp
      obtain ⟨nxt, hmem⟩ :=
        mem_pairsOf content.length hp
      refine ⟨mkPageA content (p, nxt), ?_, ?_⟩
      · simp only [pagesOf, Bool.false_eq_true, if_false,
          split_with_url_pattern]
        exact List.mem_map_of_mem _ hmem
      · exact stripL_of_all_space (by simpa [titleOf, titleA] using hsp')
    | true =>
      simp only [startsOf, if_true] at hp
      obtain ⟨nxt, hmem⟩ :=
        mem_pairsOf (neutralize_code_block_headers content).length hp
      refine ⟨mkPageB (neutralize_code_block_headers content) (p, nxt), ?_, ?_⟩
      · simp only [pagesOf, if_true, split_with_header_pattern,
          splitHeaderCore]
        exact List.mem_map_of_mem _ hmem
      · exact stripL_of_all_space (by simpa [titleOf, mkPageB] using hsp')
  refine ⟨hpage, ?_⟩
  obtain ⟨page, hmem, -⟩ := hpage
  have hne : pagesOf uho content ≠ [] := List.ne_nil_of_mem hmem
  simp [process_content, List.isEmpty_eq_false.2 hne]

/-- Witness for C8: a Strategy A boundary with a whitespace-only title. -/
theorem claim_C8_witness :
    (0 ∈ startsOf false ("#   \nSource: http://a.b/c\nbody".toList)) ∧
      (titleOf false ("#   \nSource: http://a.b/c\nbody".toList) 0).all
          isPySpace = true ∧
      ((∃ page ∈ pagesOf false ("#   \nSource: http://a.b/c\nbody".toList),
          page.title = []) ∧
        (process_content ("#   \nSource: http://a.b/c\nbody".toList)
            false).1.status = "success".toList) :=
  ⟨by decide, by decide,
    claim_C8 false ("#   \nSource: http://a.b/c\nbody".toList) 0
      (by decide) (by decide)⟩

/-! ### Claim C5: exact shape of a Strategy A boundary -/

theorem hashSpace_toList : "# ".toList = ['#', ' '] := rfl

theorem srcTag_eq : srcTag = '\n' :: "Source: ".toList := rfl

theorem dropWhile_eq_drop_len (P : Char → Bool) (l : List Char) :
    l.dropWhile P = l.drop (l.takeWhile P).length := by
  induction l with
  | nil => simp
  | cons x xs ih =>
    rw [List.dropWhile_cons, List.takeWhile_cons]
    by_cases hP : P x = true
    · simp [hP, ih]
    · simp [hP]

/-- Claim C5: a Strategy A page boundary exists at position `p` exactly when
a line `# <nonempty title>` is immediately followed by a line
`Source: <http or https URL><at least one character>`; in particular a
`#`-header line whose next line is not such a URL line yields no boundary. -/
theorem claim_C5 (s : List Char) (p : Nat) :
    p ∈ urlStarts s ↔
      (lineStartB s p = true ∧
        ∃ t u r, t ≠ [] ∧ '\n' ∉ t ∧ u ≠ [] ∧ '\n' ∉ u ∧
          ((∃ w, w ≠ [] ∧ u = "http://".toList ++ w) ∨
            (∃ w, w ≠ [] ∧ u = "https://".toList ++ w)) ∧
          s.drop p =
            '#' :: ' ' :: (t ++ '\n' :: ("Source: ".toList ++ u ++ r)) ∧
          (r = [] ∨ r.head? = some '\n')) := by
  constructor
  · intro hp
    obtain ⟨hrange, hA⟩ := List.mem_filter.1 hp
    rw [isAStart] at hA
    simp only [Bool.and_eq_true] at hA
    obtain ⟨⟨hls, hpre⟩, ⟨⟨hne, hsrc⟩, hurl⟩⟩ := hA
    refine ⟨hls, restLine s (p + 2),
      restLine s (p + 2 + (restLine s (p + 2)).length + 9),
      (s.drop (p + 2 + (restLine s (p + 2)).length + 9)).dropWhile
        (fun c => decide (c ≠ '\n')), ?_, ?_, ?_, ?_, ?_, ?_, ?_⟩
    · exact of_decide_eq_true hne
    · exact fun hm => restLine_no_nl hm rfl
    · intro hnil
      simp only [isUrlRest, Bool.or_eq_true, Bool.and_eq_true,
        decide_eq_true_eq, hnil] at hurl
      rcases hurl with ⟨-, h7⟩ | ⟨-, h8⟩
      · simp at h7
      · simp at h8
    · exact fun hm => restLine_no_nl hm rfl
    · simp only [isUrlRest, Bool.or_eq_true, Bool.and_eq_true,
        decide_eq_true_eq] at hurl
      rcases hurl with ⟨hsw, h7⟩ | ⟨hsw, h8⟩
      · refine Or.inl ⟨(restLine s (p + 2 + (restLine s (p + 2)).length + 9)).drop 7,
          ?_, startsWith_decomp hsw⟩
        intro hnil
        rw [List.drop_eq_nil_iff] at hnil
        omega
      · refine Or.inr ⟨(restLine s (p + 2 + (restLine s (p + 2)).length + 9)).drop 8,
          ?_, startsWith_decomp hsw⟩
        intro hnil
        rw [List.drop_eq_nil_iff] at hnil
        omega
    · have hd2 : s.drop p = '#' :: ' ' :: s.drop (p + 2) := by
        have h1 := startsWith_decomp hpre
        rw [hashSpace_toList] at h1
        rw [h1, ← drop_add]
        rfl
      have hsplit : s.drop (p + 2) =
          restLine s (p + 2) ++ s.drop (p + 2 + (restLine s (p + 2)).length) := by
        rw [drop_add (a := p + 2)]
        simp only [restLine]
        rw [← dropWhile_eq_drop_len]
        exact (List.takeWhile_append_dropWhile _ _).symm
      have hd3 : s.drop (p + 2 + (restLine s (p + 2)).length) =
          srcTag ++ s.drop (p + 2 + (restLine s (p + 2)).length + 9) := by
        have h1 := startsWith_decomp hsrc
        rw [h1, ← drop_add]
        rfl
      have hd4 : s.drop (p + 2 + (restLine s (p + 2)).length + 9) =
          restLine s (p + 2 + (restLine s (p + 2)).length + 9) ++
            (s.drop (p + 2 + (restLine s (p + 2)).length + 9)).dropWhile
              (fun c => decide (c ≠ '\n')) :=
        (List.takeWhile_append_dropWhile _ _).symm
      conv_lhs => rw [hd2, hsplit, hd3, hd4]
      rw [srcTag_eq]
      simp [List.append_assoc]
    · rcases hhead : ((s.drop (p + 2 + (restLine s (p + 2)).length + 9)).dropWhile
          (fun c => decide (c ≠ '\n'))).head? with - | c
      · exact Or.inl (List.head?_eq_none_iff.1 hhead)
      · refine Or.inr ?_
        have hc := head?_dropWhile hhead
        simp only [decide_eq_false_iff_not, not_not] at hc
        exact congrArg some hc
  · rintro ⟨hls, t, u, r, ht, htn, hu, hun, hsch, hd, hr⟩
    have hplen : p < s.length := by
      by_contra hle
      rw [not_lt, ← List.drop_eq_nil_iff] at hle
      rw [hle] at hd
      exact (List.cons_ne_nil _ _) hd.symm
    have h2 : s.drop (p + 2) = t ++ '\n' :: ("Source: ".toList ++ u ++ r) := by
      rw [drop_add, hd]
      rfl
    have htt : restLine s (p + 2) = t := restLine_of_append h2 htn
    have hpre : startsWith ("# ".toList) (s.drop p) = true := by
      rw [hd, hashSpace_toList]
      exact startsWith_of_append ['#', ' '] _
    have h3 : s.drop (p + 2 + t.length) = srcTag ++ (u ++ r) := by
      rw [drop_add (a := p + 2), h2, List.drop_left, srcTag_eq]
      simp [List.append_assoc]
    have hsrc : startsWith srcTag (s.drop (p + 2 + t.length)) = true := by
      rw [h3]
      exact startsWith_of_append srcTag _
    have h4 : s.drop (p + 2 + t.length + 9) = u ++ r := by
      rw [drop_add (a := p + 2 + t.length), h3]
      have : (9 : Nat) = srcTag.length := rfl
      rw [this, List.drop_left]
    have huu : restLine s (p + 2 + t.length + 9) = u := by
      rcases hr with rfl | hhd
      · exact restLine_of_all (by simpa using h4) hun
      · obtain ⟨r', rfl⟩ : ∃ r', r = '\n' :: r' := by
          cases r with
          | nil => simp at hhd
          | cons c r' =>
            simp only [List.head?_cons, Option.some.injEq] at hhd
            exact ⟨r', by rw [hhd]⟩
        exact restLine_of_append h4 hun
    have hurl : isUrlRest u = true := by
      simp only [isUrlRest, Bool.or_eq_true, Bool.and_eq_true,
        decide_eq_true_eq]
      rcases hsch with ⟨w, hw, rfl⟩ | ⟨w, hw, rfl⟩
      · refine Or.inl ⟨startsWith_of_append _ _, ?_⟩
        have : w.length ≠ 0 := fun h0 => hw (List.length_eq_zero.1 h0)
        simp [List.length_append]
        omega
      · refine Or.inr ⟨startsWith_of_append _ _, ?_⟩
        have : w.length ≠ 0 := fun h0 => hw (List.length_eq_zero.1 h0)
        simp [List.length_append]
        omega
    refine List.mem_filter.2 ⟨List.mem_range.2 hplen, ?_⟩
    rw [isAStart]
    simp only [Bool.and_eq_true]
    refine ⟨⟨hls, hpre⟩, ⟨⟨?_, ?_⟩, ?_⟩⟩
    · rw [htt]
      exact decide_eq_true ht
    · rw [htt]
      exact hsrc
    · rw [htt, huu]
      exact hurl

/-! ### Toolkit: slice algebra and the strip decomposition -/

theorem sliceL_append (s : List Char) {a b c : Nat} (h1 : a ≤ b) (h2 : b ≤ c) :
    sliceL s a b ++ sliceL s b c = sliceL s a c := by
  rw [sliceL, sliceL, sliceL]
  have hc : c - a = (b - a) + (c - b) := by omega
  rw [hc, List.take_add]
  congr 1
  rw [List.drop_drop, show a + (b - a) = b by omega]

theorem sliceL_to_end (s : List Char) (p : Nat) :
    sliceL s p s.length = s.drop p := by
  rw [sliceL]
  exact List.take_of_length_le (by rw [List.length_drop])

theorem stripDecomp (g : List Char) :
    wsHead g ++ (stripL g ++ wsTail g) = g := by
  rw [wsHead, stripL, wsTail]
  conv_rhs => rw [← List.takeWhile_append_dropWhile isPySpace g]
  congr 1
  rw [← List.reverse_append, List.takeWhile_append_dropWhile,
    List.reverse_reverse]

theorem wsHead_space {g : List Char} {c : Char} (h : c ∈ wsHead g) :
    isPySpace c = true := List.mem_takeWhile_imp h

theorem wsTail_space {g : List Char} {c : Char} (h : c ∈ wsTail g) :
    isPySpace c = true := by
  rw [wsTail, List.mem_reverse] at h
  exact List.mem_takeWhile_imp h

/-! ### Toolkit: characters inside a match -/

theorem startsWith_char {pre s : List Char} {p i : Nat}
    (h : startsWith pre (s.drop p) = true) (hi : i < pre.length) :
    s[p + i]? = pre[i]? := by
  have hd := startsWith_decomp h
  rw [← List.getElem?_drop]
  conv_lhs => rw [hd]
  rw [List.getElem?_append, if_pos hi]

theorem restLine_char {s : List Char} {a : Nat} {i : Nat}
    (h : i < (restLine s a).length) :
    ∃ c, s[a + i]? = some c ∧ c ≠ '\n' := by
  obtain ⟨c, hc⟩ : ∃ c, (restLine s a)[i]? = some c :=
    ⟨_, List.getElem?_eq_getElem h⟩
  exact ⟨c, restLine_some hc⟩

theorem startsWith_len {pre s : List Char} {p : Nat} (hpre : pre ≠ [])
    (h : startsWith pre (s.drop p) = true) : p + pre.length ≤ s.length := by
  have hd := startsWith_decomp h
  have hplen : p < s.length := by
    by_contra hc
    rw [not_lt, ← List.drop_eq_nil_iff] at hc
    rw [hc] at hd
    exact hpre (List.append_eq_nil.1 hd.symm).1
  have hlen : pre.length ≤ (s.drop p).length := by
    rw [hd, List.length_append]
    omega
  rw [List.length_drop] at hlen
  omega

theorem restLine_len {s : List Char} {a : Nat} (h : a ≤ s.length) :
    a + (restLine s a).length ≤ s.length := by
  have h1 : (restLine s a).length ≤ (s.drop a).length :=
    List.Sublist.length_le (List.takeWhile_sublist _)
  rw [List.length_drop] at h1
  omega

/-! ### Decomposing a Strategy A match into character facts -/

theorem isAStart_hash {s : List Char} {p : Nat} (h : isAStart s p = true) :
    s[p]? = some '#' ∧ s[p + 1]? = some ' ' := by
  rw [isAStart] at h
  simp only [Bool.and_eq_true] at h
  obtain ⟨⟨-, hpre⟩, -⟩ := h
  constructor
  · have h0 := startsWith_char hpre (show 0 < ("# ".toList).length by decide)
    rw [Nat.add_zero] at h0
    exact h0.trans (by decide)
  · exact (startsWith_char hpre
      (show 1 < ("# ".toList).length by decide)).trans (by decide)

theorem isAStart_nl {s : List Char} {p : Nat} (h : isAStart s p = true)
    (hp0 : p ≠ 0) : s[p - 1]? = some '\n' := by
  rw [isAStart] at h
  simp only [Bool.and_eq_true] at h
  obtain ⟨⟨hls, -⟩, -⟩ := h
  rw [lineStartB, Bool.or_eq_true, decide_eq_true_eq, decide_eq_true_eq] at hls
  rcases hls with h0 | h1
  · exact absurd h0 hp0
  · exact h1

theorem isAStart_tail {s : List Char} {p : Nat} (h : isAStart s p = true) :
    (∀ k, k < (titleA s p).length →
        ∃ c, s[p + 2 + k]? = some c ∧ c ≠ '\n') ∧
      (∀ k, k < 9 → s[p + 2 + (titleA s p).length + k]? = srcTag[k]?) ∧
      (∀ k, k < (urlA s p).length →
        ∃ c, s[p + 2 + (titleA s p).length + 9 + k]? = some c ∧ c ≠ '\n') := by
  rw [isAStart] at h
  simp only [Bool.and_eq_true] at h
  obtain ⟨⟨-, -⟩, ⟨⟨-, hsrc⟩, -⟩⟩ := h
  refine ⟨fun k hk => restLine_char hk, fun k hk => ?_, fun k hk => ?_⟩
  · exact startsWith_char hsrc (show k < srcTag.length by
      rw [show srcTag.length = 9 from rfl]; exact hk)
  · exact restLine_char hk

theorem matchEndA_le {s : List Char} {p : Nat} (h : isAStart s p = true) :
    matchEndA s p ≤ s.length := by
  rw [isAStart] at h
  simp only [Bool.and_eq_true] at h
  obtain ⟨⟨-, hpre⟩, ⟨⟨-, hsrc⟩, -⟩⟩ := h
  have h2 := startsWith_len (show "# ".toList ≠ [] by decide) hpre
  rw [show ("# ".toList).length = 2 from rfl] at h2
  have h3 := startsWith_len (show srcTag ≠ [] by decide) hsrc
  rw [show srcTag.length = 9 from rfl] at h3
  have h4 := restLine_len
    (s := s) (a := p + 2 + (restLine s (p + 2)).length + 9) (by omega)
  rw [matchEndA, urlA]
  simp only [titleA]
  omega

theorem le_matchEndA (s : List Char) (p : Nat) : p ≤ matchEndA s p := by
  rw [matchEndA]
  omega

/-- Two Strategy A matches never overlap: the full match starting at `p`
(title line, newline, `Source:` line) ends strictly before any later match
start `q`.  This is what makes the position-scan model coincide with
Python's non-overlapping `finditer`. -/
theorem noOverlapA {s : List Char} {p q : Nat} (hp : isAStart s p = true)
    (hq : isAStart s q = true) (hpq : p < q) : matchEndA s p < q := by
  by_contra hcon
  rw [not_lt] at hcon
  have hq1 : s[q]? = some '#' := (isAStart_hash hq).1
  have hnl : s[q - 1]? = some '\n' := isAStart_nl hq (by omega)
  have hp0 := isAStart_hash hp
  obtain ⟨htitle, hsrc9, hurl⟩ := isAStart_tail hp
  rw [matchEndA] at hcon
  have hcase : q - 1 = p ∨ q - 1 = p + 1 ∨
      (∃ k, k < (titleA s p).length ∧ q - 1 = p + 2 + k) ∨
      (∃ k, k < 9 ∧ q - 1 = p + 2 + (titleA s p).length + k) ∨
      (∃ k, k < (urlA s p).length ∧
        q - 1 = p + 2 + (titleA s p).length + 9 + k) := by
    by_cases c1 : q - 1 = p
    · exact Or.inl c1
    by_cases c2 : q - 1 = p + 1
    · exact Or.inr (Or.inl c2)
    by_cases c3 : q - 1 < p + 2 + (titleA s p).length
    · exact Or.inr (Or.inr (Or.inl ⟨q - 1 - (p + 2), by omega, by omega⟩))
    by_cases c4 : q - 1 < p + 2 + (titleA s p).length + 9
    · exact Or.inr (Or.inr (Or.inr (Or.inl
        ⟨q - 1 - (p + 2 + (titleA s p).length), by omega, by omega⟩)))
    · exact Or.inr (Or.inr (Or.inr (Or.inr
        ⟨q - 1 - (p + 2 + (titleA s p).length + 9), by omega, by omega⟩)))
  rcases hcase with he | he | ⟨k, hk, he⟩ | ⟨k, hk, he⟩ | ⟨k, hk, he⟩
  · rw [he] at hnl
    rw [hnl] at hp0
    simp at hp0
  · rw [he] at hnl
    rw [hnl] at hp0
    simp at hp0
  · obtain ⟨c, hc, hcn⟩ := htitle k hk
    rw [← he] at hc
    rw [hnl] at hc
    exact hcn (by simpa using hc.symm)
  · rcases Nat.eq_zero_or_pos k with rfl | hk1
    · have hqe : q = p + 2 + (titleA s p).length + 1 := by omega
      have hS := hsrc9 1 (by omega)
      rw [show p + 2 + (titleA s p).length + 1 =
        p + 2 + (titleA s p).length + 1 from rfl] at hS
      rw [← hqe] at hS
      rw [hq1] at hS
      exact absurd hS (by decide)
    · have hval := hsrc9 k hk
      rw [← he] at hval
      rw [hnl] at hval
      have hk8 : k ≤ 8 := by omega
      interval_cases k <;> exact absurd hval (by decide)
  · obtain ⟨c, hc, hcn⟩ := hurl k hk
    rw [← he] at hc
    rw [hnl] at hc
    exact hcn (by simpa using hc.symm)

/-! ### Decomposing a header-only match -/

theorem isBStart_hash {s : List Char} {p : Nat} (h : isBStart s p = true) :
    s[p]? = some '#' ∧ s[p + 1]? = some ' ' := by
  rw [isBStart] at h
  simp only [Bool.and_eq_true] at h
  obtain ⟨⟨-, hpre⟩, -⟩ := h
  constructor
  · have h0 := startsWith_char hpre (show 0 < ("# ".toList).length by decide)
    rw [Nat.add_zero] at h0
    exact h0.trans (by decide)
  · exact (startsWith_char hpre
      (show 1 < ("# ".toList).length by decide)).trans (by decide)

theorem isBStart_nl {s : List Char} {p : Nat} (h : isBStart s p = true)
    (hp0 : p ≠ 0) : s[p - 1]? = some '\n' := by
  rw [isBStart] at h
  simp only [Bool.and_eq_true] at h
  obtain ⟨⟨hls, -⟩, -⟩ := h
  rw [lineStartB, Bool.or_eq_true, decide_eq_true_eq, decide_eq_true_eq] at hls
  rcases hls with h0 | h1
  · exact absurd h0 hp0
  · exact h1

theorem matchEndB_le {s : List Char} {p : Nat} (h : isBStart s p = true) :
    matchEndB s p ≤ s.length := by
  rw [isBStart] at h
  simp only [Bool.and_eq_true] at h
  obtain ⟨⟨-, hpre⟩, -⟩ := h
  have h2 := startsWith_len (show "# ".toList ≠ [] by decide) hpre
  rw [show ("# ".toList).length = 2 from rfl] at h2
  have h4 := restLine_len (s := s) (a := p + 2) (by omega)
  rw [matchEndB]
  omega

theorem le_matchEndB (s : List Char) (p : Nat) : p ≤ matchEndB s p := by
  rw [matchEndB]
  omega

/-- Two header-only matches never overlap: the title line matched at `p`
ends strictly before any later match start `q`. -/
theorem noOverlapB {s : List Char} {p q : Nat} (hp : isBStart s p = true)
    (hq : isBStart s q = true) (hpq : p < q) : matchEndB s p < q := by
  by_contra hcon
  rw [not_lt] at hcon
  have hnl : s[q - 1]? = some '\n' := isBStart_nl hq (by omega)
  have hp0 := isBStart_hash hp
  rw [matchEndB] at hcon
  have hcase : q - 1 = p ∨ q - 1 = p + 1 ∨
      (∃ k, k < (restLine s (p + 2)).length ∧ q - 1 = p + 2 + k) := by
    by_cases c1 : q - 1 = p
    · exact Or.inl c1
    by_cases c2 : q - 1 = p + 1
    · exact Or.inr (Or.inl c2)
    · exact Or.inr (Or.inr ⟨q - 1 - (p + 2), by omega, by omega⟩)
  rcases hcase with he | he | ⟨k, hk, he⟩
  · rw [he] at hnl
    rw [hnl] at hp0
    simp at hp0
  · rw [he] at hnl
    rw [hnl] at hp0
    simp at hp0
  · obtain ⟨c, hc, hcn⟩ := restLine_char hk
    rw [← he] at hc
    rw [hnl] at hc
    exact hcn (by simpa using hc.symm)

/-! ### Sortedness of the match-start lists -/

theorem urlStarts_sorted (s : List Char) :
    List.Pairwise (· < ·) (urlStarts s) :=
  (List.pairwise_lt_range s.length).filter _

theorem urlStarts_mem {s : List Char} {p : Nat} (h : p ∈ urlStarts s) :
    p < s.length ∧ isAStart s p = true := by
  have h1 := List.mem_filter.1 h
  exact ⟨List.mem_range.1 h1.1, h1.2⟩

theorem hdrStarts_sorted (s : List Char) :
    List.Pairwise (· < ·) (hdrStarts s) :=
  (List.pairwise_lt_range s.length).filter _

theorem hdrStarts_mem {s : List Char} {p : Nat} (h : p ∈ hdrStarts s) :
    p < s.length ∧ isBStart s p = true := by
  have h1 := List.mem_filter.1 h
  exact ⟨List.mem_range.1 h1.1, h1.2⟩

/-! ### Joining the per-page slices back together -/

theorem pairsOf_singleton (p len : Nat) : pairsOf [p] len = [(p, len)] := rfl

theorem pairsOf_cons (p q : Nat) (ms : List Nat) (len : Nat) :
    pairsOf (p :: q :: ms) len = (p, q) :: pairsOf (q :: ms) len := rfl

theorem joinSlices (s : List Char) (e : Nat → Nat) (F : Nat × Nat → List Char)
    (hF : ∀ pr : Nat × Nat,
      F pr = sliceL s pr.1 (e pr.1) ++ sliceL s (e pr.1) pr.2) :
    ∀ (ms : List Nat) (p : Nat),
      List.Pairwise (· < ·) (p :: ms) →
      (∀ x ∈ p :: ms, x ≤ e x ∧ e x ≤ s.length ∧ x < s.length) →
      (∀ x ∈ p :: ms, ∀ y ∈ p :: ms, x < y → e x ≤ y) →
      ((pairsOf (p :: ms) s.length).map F).flatten = s.drop p := by
  intro ms
  induction ms with
  | nil =>
    intro p _ hbounds _
    obtain ⟨h1, h2, _⟩ := hbounds p (by simp)
    rw [pairsOf_singleton, List.map_cons, List.map_nil, List.flatten_cons,
      List.flatten_nil, List.append_nil, hF]
    rw [sliceL_append s h1 h2, sliceL_to_end]
  | cons q ms ih =>
    intro p hpw hbounds hsep
    have hpq : p < q := (List.pairwise_cons.1 hpw).1 q (by simp)
    have hih := ih q ((List.pairwise_cons.1 hpw).2)
      (fun x hx => hbounds x (List.mem_cons_of_mem p hx))
      (fun x hx y hy hxy => hsep x (List.mem_cons_of_mem p hx) y
        (List.mem_cons_of_mem p hy) hxy)
    rw [pairsOf_cons, List.map_cons, List.flatten_cons, hih, hF]
    obtain ⟨h1, h2, _⟩ := hbounds p (by simp)
    obtain ⟨-, -, hq3⟩ := hbounds q (by simp)
    have hepq : e p ≤ q := hsep p (by simp) q (by simp) hpq
    rw [← sliceL_to_end s q, List.append_assoc,
      sliceL_append s hepq (le_of_lt hq3), sliceL_append s h1 h2,
      sliceL_to_end]

/-! ### Claim C1: reconstruction of the input from the output -/

/-- Counterexample to claim C1 as stated: with text before the first
boundary, concatenating the boundary marker lines, the page contents and
the trimmed whitespace does not reconstruct the input — the leading `"x\n"`
is lost. -/
theorem claim_C1_counterexample :
    reconOf false ("x\n# A\nSource: http://a.b/c\nB".toList) ≠
      "x\n# A\nSource: http://a.b/c\nB".toList := by
  decide

/-- Claim C1 as amended: when the chosen strategy finds at least one
boundary, concatenating, per page in order, the matched boundary text, the
whitespace trimmed from the front of the page body, the page content, and
the whitespace trimmed from its back reconstructs the text being split —
the raw input under Strategy A, the neutralized text under Strategy B —
from the first boundary onward (everything before the first boundary is
dropped); the page contents are exactly the stripped inter-boundary gaps.
-/
theorem claim_C1_amended (uho : Bool) (content : List Char) (p : Nat)
    (ms' : List Nat) (h : startsOf uho content = p :: ms') :
    reconOf uho content = (splitText uho content).drop p ∧
      (pagesOf uho content).map Page.content =
        (pairsOf (startsOf uho content) (splitText uho content).length).map
          (fun pr => stripL (gapOf uho (splitText uho content) pr)) := by
  cases uho with
  | false =>
    simp only [startsOf, Bool.false_eq_true, if_false] at h
    constructor
    · rw [reconOf]
      simp only [startsOf, splitText, matchEndOf, Bool.false_eq_true,
        if_false]
      rw [h]
      refine joinSlices content (matchEndA content) _ (fun pr => ?_)
        ms' p (by rw [← h]; exact urlStarts_sorted content)
        (fun x hx => ?_) (fun x hx y hy hxy => ?_)
      · rw [gapOf]
        simp only [matchEndOf, Bool.false_eq_true, if_false]
        rw [stripDecomp]
      · have hx' := urlStarts_mem (by rw [h]; exact hx)
        exact ⟨le_matchEndA content x, matchEndA_le hx'.2, hx'.1⟩
      · have hx' := urlStarts_mem (by rw [h]; exact hx)
        have hy' := urlStarts_mem (by rw [h]; exact hy)
        exact le_of_lt (noOverlapA hx'.2 hy'.2 hxy)
    · simp only [pagesOf, Bool.false_eq_true, if_false,
        split_with_url_pattern, startsOf, splitText, List.map_map]
      rfl
  | true =>
    simp only [startsOf, if_true] at h
    constructor
    · rw [reconOf]
      simp only [startsOf, splitText, matchEndOf, if_true]
      rw [h]
      refine joinSlices (neutralize_code_block_headers content)
        (matchEndB (neutralize_code_block_headers content)) _ (fun pr => ?_)
        ms' p (by rw [← h]; exact hdrStarts_sorted _)
        (fun x hx => ?_) (fun x hx y hy hxy => ?_)
      · rw [gapOf]
        simp only [matchEndOf, if_true]
        rw [stripDecomp]
      · have hx' := hdrStarts_mem (by rw [h]; exact hx)
        exact ⟨le_matchEndB _ x, matchEndB_le hx'.2, hx'.1⟩
      · have hx' := hdrStarts_mem (by rw [h]; exact hx)
        have hy' := hdrStarts_mem (by rw [h]; exact hy)
        exact le_of_lt (noOverlapB hx'.2 hy'.2 hxy)
    · simp only [pagesOf, if_true, split_with_header_pattern,
        splitHeaderCore, startsOf, splitText, List.map_map]
      rfl

/-- Witness for the amended C1 on a concrete Strategy A input whose page
body carries whitespace on both sides. -/
theorem claim_C1_amended_witness :
    (startsOf false ("# A\nSource: http://a.b/c\n B \n".toList) = [0]) ∧
      (reconOf false ("# A\nSource: http://a.b/c\n B \n".toList) =
          (splitText false ("# A\nSource: http://a.b/c\n B \n".toList)).drop
            0 ∧
        (pagesOf false ("# A\nSource: http://a.b/c\n B \n".toList)).map
            Page.content =
          (pairsOf
              (startsOf false ("# A\nSource: http://a.b/c\n B \n".toList))
              (splitText false
                  ("# A\nSource: http://a.b/c\n B \n".toList)).length).map
            (fun pr =>
              stripL
                (gapOf false
                  (splitText false ("# A\nSource: http://a.b/c\n B \n".toList))
                  pr))) :=
  ⟨by decide,
    claim_C1_amended false ("# A\nSource: http://a.b/c\n B \n".toList) 0 []
      (by decide)⟩

/-! ### Shift lemmas: the scan after the first boundary -/

theorem isAStart_ls {s : List Char} {p : Nat} (h : isAStart s p = true) :
    lineStartB s p = true := by
  rw [isAStart] at h
  simp only [Bool.and_eq_true] at h
  exact h.1.1

theorem isBStart_ls {s : List Char} {p : Nat} (h : isBStart s p = true) :
    lineStartB s p = true := by
  rw [isBStart] at h
  simp only [Bool.and_eq_true] at h
  exact h.1.1

theorem restLine_shift (s : List Char) (p k : Nat) :
    restLine (s.drop p) k = restLine s (p + k) := by
  rw [restLine, restLine, drop_add]

theorem lineStartB_shift {s : List Char} {p : Nat}
    (hls : lineStartB s p = true) (j : Nat) :
    lineStartB (s.drop p) j = lineStartB s (p + j) := by
  cases j with
  | zero =>
    have h0 : lineStartB (s.drop p) 0 = true := by
      rw [lineStartB]
      simp
    rw [h0, Nat.add_zero, hls]
  | succ k =>
    rw [lineStartB, lineStartB]
    have h1 : decide (k + 1 = 0) = false := decide_eq_false (by omega)
    have h2 : decide (p + (k + 1) = 0) = false := decide_eq_false (by omega)
    rw [h1, h2, Bool.false_or, Bool.false_or]
    have h3 : k + 1 - 1 = k := rfl
    have h4 : p + (k + 1) - 1 = p + k := by omega
    rw [h3, h4, List.getElem?_drop]

theorem isAStart_shift {s : List Char} {p : Nat}
    (hls : lineStartB s p = true) (j : Nat) :
    isAStart (s.drop p) j = isAStart s (p + j) := by
  rw [isAStart, isAStart, lineStartB_shift hls, restLine_shift, ← drop_add,
    restLine_shift, ← drop_add]
  simp only [Nat.add_assoc]

theorem isBStart_shift {s : List Char} {p : Nat}
    (hls : lineStartB s p = true) (j : Nat) :
    isBStart (s.drop p) j = isBStart s (p + j) := by
  rw [isBStart, isBStart, lineStartB_shift hls, restLine_shift, ← drop_add]
  simp only [Nat.add_assoc]

theorem filter_range_shift (n p : Nat) (g : Nat → Bool) (hp : p ≤ n)
    (hlow : ∀ j, j < p → g j = false) :
    (List.range n).filter g =
      ((List.range (n - p)).filter (fun j => g (p + j))).map (fun j => p + j)
    := by
  conv_lhs => rw [show n = p + (n - p) by omega, List.range_add]
  rw [List.filter_append]
  have h1 : (List.range p).filter g = [] := by
    rw [List.filter_eq_nil_iff]
    exact fun a ha => by
      rw [hlow a (List.mem_range.1 ha)]
      simp
  rw [h1, List.nil_append, List.filter_map]
  rfl

theorem sliceL_drop {s : List Char} {p x y : Nat} (hx : p ≤ x) :
    sliceL (s.drop p) (x - p) (y - p) = sliceL s x y := by
  rw [sliceL, sliceL, ← drop_add]
  rw [show p + (x - p) = x by omega, show y - p - (x - p) = y - x by omega]

theorem starts_drop {s : List Char} {g : List Char → Nat → Bool} {p : Nat}
    (hp : p < s.length)
    (hshift : ∀ j, g (s.drop p) j = g s (p + j))
    (hlow : ∀ j, j < p → g s j = false) :
    (List.range (s.drop p).length).filter (g (s.drop p)) =
      ((List.range s.length).filter (g s)).map (fun x => x - p) := by
  have h1 := filter_range_shift s.length p (g s) (le_of_lt hp) hlow
  rw [h1, List.map_map]
  have h2 : ((fun x => x - p) ∘ fun j => p + j) = id := by
    funext x
    simp
  rw [h2, List.map_id, List.length_drop]
  exact List.filter_congr (fun j _ => hshift j)

theorem pairsOf_map_sub (ms : List Nat) (len p : Nat) :
    pairsOf (ms.map (fun x => x - p)) (len - p) =
      (pairsOf ms len).map
        (Prod.map (fun x => x - p) (fun x => x - p)) := by
  rw [pairsOf, pairsOf]
  rw [show (ms.map fun x => x - p).drop 1 = (ms.drop 1).map fun x => x - p
    from (List.map_drop _ _ _).symm]
  rw [show ([len - p] : List Nat) = List.map (fun x => x - p) [len] from rfl]
  rw [← List.map_append, List.zip_map]

theorem mkPageA_shift {s : List Char} {p a b : Nat} (ha : p ≤ a) :
    mkPageA (s.drop p) (a - p, b - p) = mkPageA s (a, b) := by
  have htitle : titleA (s.drop p) (a - p) = titleA s a := by
    rw [titleA, titleA, restLine_shift, show p + (a - p + 2) = a + 2 by omega]
  have hurl : urlA (s.drop p) (a - p) = urlA s a := by
    rw [urlA, urlA, htitle, restLine_shift,
      show p + (a - p + 2 + (titleA s a).length + 9)
        = a + 2 + (titleA s a).length + 9 by omega]
  have hend : matchEndA (s.drop p) (a - p) = matchEndA s a - p := by
    rw [matchEndA, matchEndA, htitle, hurl]
    omega
  have hgap : sliceL (s.drop p) (matchEndA (s.drop p) (a - p)) (b - p) =
      sliceL s (matchEndA s a) b := by
    rw [hend]
    exact sliceL_drop (le_trans ha (le_matchEndA s a))
  rw [mkPageA, mkPageA]
  simp only [htitle, hurl, hgap]

theorem mkPageB_shift {s : List Char} {p a b : Nat} (ha : p ≤ a) :
    mkPageB (s.drop p) (a - p, b - p) = mkPageB s (a, b) := by
  have htitle : restLine (s.drop p) (a - p + 2) = restLine s (a + 2) := by
    rw [restLine_shift, show p + (a - p + 2) = a + 2 by omega]
  have hend : matchEndB (s.drop p) (a - p) = matchEndB s a - p := by
    rw [matchEndB, matchEndB, htitle]
    omega
  have hgap : sliceL (s.drop p) (matchEndB (s.drop p) (a - p)) (b - p) =
      sliceL s (matchEndB s a) b := by
    rw [hend]
    exact sliceL_drop (le_trans ha (le_matchEndB s a))
  rw [mkPageB, mkPageB]
  simp only [htitle, hgap]

/-- Claim C10: everything before the first boundary match is discarded —
the page sequence is a function of the split text from the first boundary
onward only, under either strategy.  (For Strategy B the split text is the
neutralized text, from which both matches and contents are taken.) -/
theorem claim_C10 (uho : Bool) (content : List Char) (p : Nat)
    (ms' : List Nat) (h : startsOf uho content = p :: ms') :
    pagesOf uho content = coreOf uho ((splitText uho content).drop p) := by
  cases uho with
  | false =>
    simp only [startsOf, Bool.false_eq_true, if_false] at h
    simp only [pagesOf, coreOf, splitText, Bool.false_eq_true, if_false]
    have hpmem : p ∈ urlStarts content := by
      rw [h]
      simp
    obtain ⟨hplen, hpA⟩ := urlStarts_mem hpmem
    have hls := isAStart_ls hpA
    have hsorted := urlStarts_sorted content
    rw [h] at hsorted
    have hlow : ∀ j, j < p → isAStart content j = false := by
      intro j hj
      by_contra hc
      rw [Bool.not_eq_false] at hc
      have hjm : j ∈ urlStarts content :=
        List.mem_filter.2 ⟨List.mem_range.2 (by omega), hc⟩
      rw [h] at hjm
      rcases List.mem_cons.1 hjm with rfl | hjm'
      · omega
      · have := (List.pairwise_cons.1 hsorted).1 j hjm'
        omega
    have hstarts : urlStarts (content.drop p) =
        (urlStarts content).map (fun x => x - p) := by
      rw [urlStarts, urlStarts]
      exact starts_drop hplen (isAStart_shift hls) hlow
    rw [split_with_url_pattern, split_with_url_pattern, hstarts, h,
      List.length_drop, pairsOf_map_sub, List.map_map]
    refine List.map_congr_left fun pr hpr => ?_
    obtain ⟨a, b⟩ := pr
    obtain ⟨hamem, hbmem⟩ := List.of_mem_zip hpr
    have ha : p ≤ a := by
      rcases List.mem_cons.1 hamem with rfl | ha'
      · exact le_rfl
      · exact le_of_lt ((List.pairwise_cons.1 hsorted).1 a ha')
    exact (mkPageA_shift ha).symm
  | true =>
    simp only [startsOf, if_true] at h
    simp only [pagesOf, coreOf, splitText, if_true,
      split_with_header_pattern]
    have hpmem : p ∈ hdrStarts (neutralize_code_block_headers content) := by
      rw [h]
      simp
    obtain ⟨hplen, hpB⟩ := hdrStarts_mem hpmem
    have hls := isBStart_ls hpB
    have hsorted := hdrStarts_sorted (neutralize_code_block_headers content)
    rw [h] at hsorted
    have hlow : ∀ j, j < p →
        isBStart (neutralize_code_block_headers content) j = false := by
      intro j hj
      by_contra hc
      rw [Bool.not_eq_false] at hc
      have hjm : j ∈ hdrStarts (neutralize_code_block_headers content) :=
        List.mem_filter.2 ⟨List.mem_range.2 (by omega), hc⟩
      rw [h] at hjm
      rcases List.mem_cons.1 hjm with rfl | hjm'
      · omega
      · have := (List.pairwise_cons.1 hsorted).1 j hjm'
        omega
    have hstarts :
        hdrStarts ((neutralize_code_block_headers content).drop p) =
          (hdrStarts (neutralize_code_block_headers content)).map
            (fun x => x - p) := by
      rw [hdrStarts, hdrStarts]
      exact starts_drop hplen (isBStart_shift hls) hlow
    rw [splitHeaderCore, splitHeaderCore, hstarts, h,
      List.length_drop, pairsOf_map_sub, List.map_map]
    refine List.map_congr_left fun pr hpr => ?_
    obtain ⟨a, b⟩ := pr
    obtain ⟨hamem, hbmem⟩ := List.of_mem_zip hpr
    have ha : p ≤ a := by
      rcases List.mem_cons.1 hamem with rfl | ha'
      · exact le_rfl
      · exact le_of_lt ((List.pairwise_cons.1 hsorted).1 a ha')
    exact (mkPageB_shift ha).symm

/-- Witness for C10: junk before the first boundary is dropped on a
concrete Strategy A input. -/
theorem claim_C10_witness :
    (startsOf false ("junk\n# A\nSource: http://a.b/c\nB".toList) = [5]) ∧
      pagesOf false ("junk\n# A\nSource: http://a.b/c\nB".toList) =
        coreOf false
          ((splitText false
              ("junk\n# A\nSource: http://a.b/c\nB".toList)).drop 5) :=
  ⟨by decide,
    claim_C10 false ("junk\n# A\nSource: http://a.b/c\nB".toList) 5 []
      (by decide)⟩

/-! ### The line-level effect of the code-block rewrite -/

theorem subHash_nil (a : Bool) : subHash a [] = [] := rfl

theorem subHash_cons (a : Bool) (c : Char) (rest : List Char) :
    subHash a (c :: rest) =
      if a && (c == '#') && (rest.head? == some ' ') then
        '#' :: '#' :: c :: subHash false rest
      else c :: subHash (c == '\n') rest := rfl

theorem linesOf_nil : linesOf [] = [[]] := rfl

theorem linesOf_cons (c : Char) (rest : List Char) :
    linesOf (c :: rest) =
      if c = '\n' then [] :: linesOf rest
      else (c :: (linesOf rest).headD []) :: (linesOf rest).tail := rfl

theorem linesOf_ne_nil (l : List Char) : linesOf l ≠ [] := by
  cases l with
  | nil => simp [linesOf_nil]
  | cons c rest =>
    rw [linesOf_cons]
    by_cases h : c = '\n' <;> simp [h]

theorem linesOf_headD_head {rest : List Char} {x : Char}
    (h : ((linesOf rest).headD []).head? = some x) : rest.head? = some x := by
  cases rest with
  | nil => simp [linesOf_nil] at h
  | cons r rs =>
    rw [linesOf_cons] at h
    by_cases hr : r = '\n'
    · rw [if_pos hr] at h
      simp at h
    · rw [if_neg hr] at h
      simp only [List.headD_cons, List.head?_cons, Option.some.injEq] at h
      simp [← h]

theorem demote_of_ne {c : Char} {H : List Char}
    (hne : ¬(c = '#' ∧ H.head? = some ' ')) : demote (c :: H) = c :: H := by
  rw [demote, if_neg ?_]
  intro hsw
  rw [startsWith] at hsw
  have htake2 : (c :: H).take 2 = ['#', ' '] := of_decide_eq_true hsw
  cases H with
  | nil => simp at htake2
  | cons y ys =>
    obtain ⟨hc, hy⟩ : c = '#' ∧ y = ' ' := by simpa using htake2
    exact hne ⟨hc, by simp [hy]⟩

theorem linesOf_cons_ne {c : Char} (l : List Char) (h : ¬(c = '\n')) :
    linesOf (c :: l) = (c :: (linesOf l).headD []) :: (linesOf l).tail := by
  rw [linesOf_cons, if_neg h]

theorem linesOf_cons_nl (l : List Char) :
    linesOf ('\n' :: l) = [] :: linesOf l := by
  rw [linesOf_cons, if_pos rfl]

theorem demote_nil : demote [] = [] := by decide

theorem linesOf_subHash (b : List Char) : ∀ a : Bool,
    linesOf (subHash a b) =
      if a then (linesOf b).map demote
      else ((linesOf b).headD []) :: ((linesOf b).tail.map demote) := by
  induction b with
  | nil =>
    intro a
    cases a <;>
      simp [subHash_nil, linesOf_nil, demote, startsWith]
  | cons c rest ih =>
    intro a
    rw [subHash_cons]
    by_cases hcond : (a && (c == '#') && (rest.head? == some ' ')) = true
    · rw [if_pos hcond]
      simp only [Bool.and_eq_true, beq_iff_eq] at hcond
      obtain ⟨⟨ha, hc⟩, hr⟩ := hcond
      subst ha
      subst hc
      obtain ⟨r', rfl⟩ : ∃ r', rest = ' ' :: r' := by
        cases rest with
        | nil => simp at hr
        | cons x xs =>
          simp only [List.head?_cons, Option.some.injEq] at hr
          exact ⟨xs, by rw [hr]⟩
      rw [if_pos rfl]
      have hX : linesOf (subHash false (' ' :: r')) =
          (linesOf (' ' :: r')).headD [] ::
            (linesOf (' ' :: r')).tail.map demote := by
        have := ih false
        simpa using this
      have hHead : linesOf (' ' :: r') =
          (' ' :: (linesOf r').headD []) :: (linesOf r').tail :=
        linesOf_cons_ne r' (by decide)
      have h1 : linesOf (subHash false (' ' :: r')) =
          (' ' :: (linesOf r').headD []) :: (linesOf r').tail.map demote := by
        rw [hX, hHead]
        simp
      have h2 : linesOf ('#' :: subHash false (' ' :: r')) =
          ('#' :: ' ' :: (linesOf r').headD []) ::
            (linesOf r').tail.map demote := by
        rw [linesOf_cons_ne _ (by decide), h1]
        simp
      have h3 : linesOf ('#' :: '#' :: subHash false (' ' :: r')) =
          ('#' :: '#' :: ' ' :: (linesOf r').headD []) ::
            (linesOf r').tail.map demote := by
        rw [linesOf_cons_ne _ (by decide), h2]
        simp
      have h4 : linesOf ('#' :: '#' :: '#' :: subHash false (' ' :: r')) =
          ('#' :: '#' :: '#' :: ' ' :: (linesOf r').headD []) ::
            (linesOf r').tail.map demote := by
        rw [linesOf_cons_ne _ (by decide), h3]
        simp
      rw [h4]
      have hRhs : linesOf ('#' :: ' ' :: r') =
          ('#' :: ' ' :: (linesOf r').headD []) :: (linesOf r').tail := by
        rw [linesOf_cons_ne _ (by decide), hHead]
        simp
      rw [hRhs, List.map_cons]
      have hdem : demote ('#' :: ' ' :: (linesOf r').headD []) =
          '#' :: '#' :: '#' :: ' ' :: (linesOf r').headD [] := by
        rw [demote, if_pos (show startsWith ("# ".toList)
          ('#' :: ' ' :: (linesOf r').headD []) = true from rfl)]
      rw [hdem]
    · rw [if_neg hcond]
      by_cases hcn : c = '\n'
      · subst hcn
        rw [show (('\n' : Char) == '\n') = true from by decide]
        have hX : linesOf (subHash true rest) =
            (linesOf rest).map demote := by
          have := ih true
          simpa using this
        rw [linesOf_cons_nl, hX, linesOf_cons_nl]
        cases a with
        | false => simp
        | true =>
          simp only [if_true, List.map_cons, demote_nil]
      · rw [show ((c : Char) == '\n') = false from beq_eq_false_iff_ne.2 hcn]
        have hX : linesOf (subHash false rest) =
            (linesOf rest).headD [] :: (linesOf rest).tail.map demote := by
          have := ih false
          simpa using this
        rw [linesOf_cons_ne _ hcn, hX, linesOf_cons_ne _ hcn]
        simp only [List.headD_cons, List.tail_cons]
        cases a with
        | false => simp
        | true =>
          simp only [if_true, List.map_cons]
          have hne : ¬(c = '#' ∧ ((linesOf rest).headD []).head? = some ' ')
            := by
            rintro ⟨rfl, hsp⟩
            have hrh := linesOf_headD_head hsp
            apply hcond
            simp [hrh]
          rw [demote_of_ne hne]

/-! ### The fence decomposition partitions the text -/

theorem fenceSplitAux_cons (fuel : Nat) (c : Char) (rest : List Char) :
    fenceSplitAux (fuel + 1) (c :: rest) =
      if (c :: rest).take 3 = [btick, btick, btick] then
        match findTriple (rest.drop 2) with
        | some q => (true, (c :: rest).take (q + 6)) ::
            fenceSplitAux fuel ((c :: rest).drop (q + 6))
        | none => (false, [c]) :: fenceSplitAux fuel rest
      else (false, [c]) :: fenceSplitAux fuel rest := rfl

theorem fenceSplitAux_join : ∀ (fuel : Nat) (l : List Char),
    l.length ≤ fuel → ((fenceSplitAux fuel l).map Prod.snd).flatten = l := by
  intro fuel
  induction fuel with
  | zero =>
    intro l hl
    have hnil : l = [] := List.length_eq_zero.1 (by omega)
    subst hnil
    rfl
  | succ fuel ih =>
    intro l hl
    match l with
    | [] => rfl
    | c :: rest =>
      rw [fenceSplitAux_cons]
      by_cases hb : (c :: rest).take 3 = [btick, btick, btick]
      · rw [if_pos hb]
        cases hft : findTriple (rest.drop 2) with
        | none =>
          simp only [List.map_cons, List.flatten_cons]
          rw [ih rest (by simp only [List.length_cons] at hl; omega)]
          rfl
        | some q =>
          simp only [List.map_cons, List.flatten_cons]
          rw [ih ((c :: rest).drop (q + 6)) (by
            rw [List.length_drop]
            simp only [List.length_cons] at hl ⊢
            omega)]
          exact List.take_append_drop _ _
      · rw [if_neg hb]
        simp only [List.map_cons, List.flatten_cons]
        rw [ih rest (by simp only [List.length_cons] at hl; omega)]
        rfl

theorem fenceSplit_join (l : List Char) :
    ((fenceSplit l).map Prod.snd).flatten = l :=
  fenceSplitAux_join l.length l le_rfl

/-! ### Newline and line counts through the rewrite -/

theorem count_nl_subHash (b : List Char) : ∀ a : Bool,
    List.count '\n' (subHash a b) = List.count '\n' b := by
  induction b with
  | nil => intro a; rfl
  | cons c rest ih =>
    intro a
    rw [subHash_cons]
    by_cases hcond : (a && (c == '#') && (rest.head? == some ' ')) = true
    · rw [if_pos hcond]
      simp only [Bool.and_eq_true, beq_iff_eq] at hcond
      obtain ⟨⟨-, hc⟩, -⟩ := hcond
      subst hc
      simp [List.count_cons, ih false]
    · rw [if_neg hcond]
      simp [List.count_cons, ih (c == '\n')]

theorem count_nl_neutralize (content : List Char) :
    List.count '\n' (neutralize_code_block_headers content) =
      List.count '\n' content := by
  rw [neutralize_code_block_headers]
  rw [List.count_flatten, List.map_map]
  conv_rhs => rw [← fenceSplit_join content, List.count_flatten, List.map_map]
  refine congrArg List.sum (List.map_congr_left fun sg _ => ?_)
  simp only [Function.comp_apply]
  rw [processSeg]
  by_cases h : sg.1 = true
  · rw [if_pos h, count_nl_subHash]
  · rw [if_neg h]

theorem linesOf_length (l : List Char) :
    (linesOf l).length = List.count '\n' l + 1 := by
  induction l with
  | nil => rfl
  | cons c rest ih =>
    by_cases h : c = '\n'
    · subst h
      rw [linesOf_cons_nl]
      simp [List.count_cons, ih]
    · rw [linesOf_cons_ne _ h]
      simp only [List.length_cons]
      rw [List.length_tail, ih]
      rw [List.count_cons]
      simp only [beq_iff_eq, h, if_false]
      omega

/-! ### Claim C4: what the neutralization changes -/

/-- Counterexample to claim C4 as stated: the rewrite does not preserve the
total character length — each rewritten line gains two characters. -/
theorem claim_C4_counterexample :
    (neutralize_code_block_headers ("```\n# a\n```".toList)).length ≠
      ("```\n# a\n```".toList).length := by
  decide

/-- Claim C4 as amended: the fence scan partitions the input into segments
whose concatenation is the input; the rewrite maps each segment, leaving
non-fence segments untouched; inside a fence segment it acts line by line
as `demote`, which prepends `##` to a line beginning with `# ` and leaves
every other line unchanged; the newline count and hence the line count are
preserved.  (Total character length is not preserved: see the
counterexample, each demoted line gains two characters.) -/
theorem claim_C4_amended (content : List Char) :
    ((fenceSplit content).map Prod.snd).flatten = content ∧
      neutralize_code_block_headers content =
        ((fenceSplit content).map processSeg).flatten ∧
      (∀ sg ∈ fenceSplit content, sg.1 = false → processSeg sg = sg.2) ∧
      (∀ sg ∈ fenceSplit content, sg.1 = true →
        linesOf (processSeg sg) = (linesOf sg.2).map demote) ∧
      List.count '\n' (neutralize_code_block_headers content) =
        List.count '\n' content ∧
      (linesOf (neutralize_code_block_headers content)).length =
        (linesOf content).length := by
  refine ⟨fenceSplit_join content, rfl, ?_, ?_, count_nl_neutralize content,
    ?_⟩
  · intro sg _ h
    rw [processSeg, h]
    simp
  · intro sg _ h
    rw [processSeg, if_pos h]
    have hlines := linesOf_subHash sg.2 true
    simpa using hlines
  · rw [linesOf_length, linesOf_length, count_nl_neutralize]

/-- Witness for the amended C4: the fence block of a concrete input is
demoted line by line. -/
theorem claim_C4_amended_witness :
    ((true, "```\n# a\n```".toList) ∈
        fenceSplit ("x\n```\n# a\n```".toList)) ∧
      linesOf (processSeg (true, "```\n# a\n```".toList)) =
        (linesOf ("```\n# a\n```".toList)).map demote :=
  ⟨by decide, (claim_C4_amended ("x\n```\n# a\n```".toList)).2.2.2.1
    (true, "```\n# a\n```".toList) (by decide) rfl⟩

/-! ### Shape of the scanned fence blocks -/

theorem findTriple_cons (c : Char) (rest : List Char) :
    findTriple (c :: rest) =
      if (c :: rest).take 3 = [btick, btick, btick] then some 0
      else (findTriple rest).map (· + 1) := rfl

theorem take3_chars {l : List Char}
    (h : l.take 3 = [btick, btick, btick]) :
    ∀ i, i < 3 → l[i]? = some btick := by
  intro i hi
  have ht := List.getElem?_take (l := l) (n := 3) (m := i)
  rw [h, if_pos hi] at ht
  rw [← ht]
  interval_cases i <;> rfl

theorem findTriple_spec (l : List Char) : ∀ q, findTriple l = some q →
    l[q]? = some btick ∧ l[q + 1]? = some btick ∧ l[q + 2]? = some btick
    := by
  induction l with
  | nil => intro q h; simp [findTriple] at h
  | cons c rest ih =>
    intro q h
    rw [findTriple_cons] at h
    by_cases hb : (c :: rest).take 3 = [btick, btick, btick]
    · rw [if_pos hb] at h
      have hq : q = 0 := by simpa using h.symm
      subst hq
      exact ⟨take3_chars hb 0 (by omega), take3_chars hb 1 (by omega),
        take3_chars hb 2 (by omega)⟩
    · rw [if_neg hb] at h
      obtain ⟨q', hq', rfl⟩ : ∃ q', findTriple rest = some q' ∧ q' + 1 = q
        := by
        cases hft : findTriple rest with
        | none => rw [hft] at h; simp at h
        | some x =>
          rw [hft] at h
          simp only [Option.map_some'] at h
          exact ⟨x, rfl, by simpa using h⟩
      obtain ⟨h0, h1, h2⟩ := ih q' hq'
      refine ⟨?_, ?_, ?_⟩
      · rw [show q' + 1 = q' + 1 from rfl, List.getElem?_cons_succ]
        exact h0
      · rw [show q' + 1 + 1 = (q' + 1) + 1 from rfl, List.getElem?_cons_succ]
        exact h1
      · rw [show q' + 1 + 2 = (q' + 2) + 1 by omega, List.getElem?_cons_succ]
        exact h2

theorem block_shape : ∀ (fuel : Nat) (l : List Char)
    (sg : Bool × List Char), sg ∈ fenceSplitAux fuel l → sg.1 = true →
    (∃ mid, sg.2 = btick :: mid) ∧ sg.2.getLast? = some btick := by
  intro fuel
  induction fuel with
  | zero =>
    intro l sg hmem
    simp [fenceSplitAux] at hmem
  | succ fuel ih =>
    intro l sg hmem htrue
    match l with
    | [] => simp [fenceSplitAux] at hmem
    | c :: rest =>
      rw [fenceSplitAux_cons] at hmem
      by_cases hb : (c :: rest).take 3 = [btick, btick, btick]
      · rw [if_pos hb] at hmem
        cases hft : findTriple (rest.drop 2) with
        | none =>
          rw [hft] at hmem
          rcases List.mem_cons.1 hmem with rfl | hmem'
          · simp at htrue
          · exact ih rest sg hmem' htrue
        | some q =>
          rw [hft] at hmem
          rcases List.mem_cons.1 hmem with rfl | hmem'
          · have hc : c = btick := by
              have := take3_chars hb 0 (by omega)
              simpa using this
            obtain ⟨h0, h1, h2⟩ := findTriple_spec (rest.drop 2) q hft
            have hqlen : q + 2 < rest.length - 2 := by
              by_contra hcon
              rw [not_lt, ← List.length_drop] at hcon
              rw [List.getElem?_eq_none hcon] at h2
              exact Option.noConfusion h2
            constructor
            · refine ⟨(rest.take (q + 5)), ?_⟩
              simp only [List.take_succ_cons]
              rw [hc]
            · have hlen : ((c :: rest).take (q + 6)).length = q + 6 := by
                rw [List.length_take]
                simp only [List.length_cons]
                omega
              rw [List.getLast?_eq_getElem?, hlen]
              have he1 : ((c :: rest).take (q + 6))[q + 6 - 1]? =
                  (c :: rest)[q + 5]? := by
                rw [List.getElem?_take, if_pos (by omega),
                  show q + 6 - 1 = q + 5 by omega]
              rw [he1, show q + 5 = (q + 4) + 1 by omega,
                List.getElem?_cons_succ]
              rw [List.getElem?_drop] at h2
              rw [show 2 + (q + 2) = q + 4 by omega] at h2
              exact h2
          · exact ih _ sg hmem' htrue
      · rw [if_neg hb] at hmem
        rcases List.mem_cons.1 hmem with rfl | hmem'
        · simp at htrue
        · exact ih rest sg hmem' htrue

/-! ### The rewrite never leaves a header start inside a block -/

theorem subHash_ne_nil (a : Bool) (c : Char) (rest : List Char) :
    subHash a (c :: rest) ≠ [] := by
  rw [subHash_cons]
  by_cases h : (a && (c == '#') && (rest.head? == some ' ')) = true <;>
    simp [h]

theorem getLast?_cons_ne {l : List Char} (x : Char) (h : l ≠ []) :
    (x :: l).getLast? = l.getLast? := by
  cases l with
  | nil => exact absurd rfl h
  | cons y ys => exact List.getLast?_cons_cons

theorem subHash_getLast (b : List Char) : ∀ a : Bool, b ≠ [] →
    (subHash a b).getLast? = b.getLast? := by
  induction b with
  | nil => intro a h; exact absurd rfl h
  | cons c rest ih =>
    intro a _
    rw [subHash_cons]
    cases rest with
    | nil =>
      have hcond : (a && (c == '#') && (([] : List Char).head? == some ' '))
          = false := by simp
      rw [hcond]
      simp [subHash_nil]
    | cons r rs =>
      by_cases hcond : (a && (c == '#') && ((r :: rs).head? == some ' '))
          = true
      · rw [if_pos hcond]
        have hne := subHash_ne_nil false r rs
        rw [getLast?_cons_ne '#' (List.cons_ne_nil _ _),
          getLast?_cons_ne '#' (List.cons_ne_nil _ _),
          getLast?_cons_ne (l := subHash false (r :: rs)) c hne,
          ih false (List.cons_ne_nil _ _),
          getLast?_cons_ne c (List.cons_ne_nil _ _)]
      · rw [if_neg hcond]
        rw [getLast?_cons_ne (l := subHash (c == '\n') (r :: rs)) c
            (subHash_ne_nil _ r rs),
          ih (c == '\n') (List.cons_ne_nil _ _),
          getLast?_cons_ne c (List.cons_ne_nil _ _)]

theorem subHash_false_head (l : List Char) :
    (subHash false l)[0]? = l[0]? := by
  cases l with
  | nil => rfl
  | cons c rest =>
    rw [subHash_cons]
    simp

theorem getElem?_cons1 (x : Char) (l : List Char) (k : Nat) :
    (x :: l)[k + 1]? = l[k]? := List.getElem?_cons_succ

theorem getElem?_cons3 (x y z : Char) (l : List Char) (k : Nat) :
    (x :: y :: z :: l)[k + 3]? = l[k]? := by
  rw [show k + 3 = (k + 2) + 1 by omega, List.getElem?_cons_succ,
    show k + 2 = (k + 1) + 1 by omega, List.getElem?_cons_succ,
    List.getElem?_cons_succ]

theorem subHash_true_head (b : List Char) :
    ¬((subHash true b)[0]? = some '#' ∧ (subHash true b)[1]? = some ' ')
    := by
  rintro ⟨hh, hs⟩
  cases b with
  | nil => simp [subHash_nil] at hh
  | cons c rest =>
    rw [subHash_cons] at hh hs
    by_cases hcond : (true && (c == '#') && (rest.head? == some ' ')) = true
    · rw [if_pos hcond] at hs
      simp at hs
    · rw [if_neg hcond] at hh hs
      simp only [List.getElem?_cons_zero, Option.some.injEq] at hh
      subst hh
      rw [show (1 : Nat) = 0 + 1 from rfl, getElem?_cons1] at hs
      have hs' : (subHash (('#' : Char) == '\n') rest)[0]? = some ' ' := hs
      rw [show (('#' : Char) == '\n') = false from by decide] at hs'
      rw [subHash_false_head] at hs'
      apply hcond
      have hhead : rest.head? = some ' ' := by
        rw [List.head?_eq_getElem?]
        exact hs'
      simp [hhead]

theorem subHash_no_nlhash (b : List Char) : ∀ (a : Bool) (j : Nat),
    ¬((subHash a b)[j]? = some '\n' ∧ (subHash a b)[j + 1]? = some '#' ∧
      (subHash a b)[j + 2]? = some ' ') := by
  induction b with
  | nil =>
    intro a j h
    simp [subHash_nil] at h
  | cons c rest ih =>
    intro a j h
    obtain ⟨h0, h1, h2⟩ := h
    rw [subHash_cons] at h0 h1 h2
    by_cases hcond : (a && (c == '#') && (rest.head? == some ' ')) = true
    · rw [if_pos hcond] at h0 h1 h2
      revert h0 h1 h2
      match j with
      | 0 =>
        intro h0 _ _
        simp at h0
      | 1 =>
        intro h0 _ _
        simp at h0
      | 2 =>
        intro h0 _ _
        simp only [Bool.and_eq_true, beq_iff_eq] at hcond
        obtain ⟨⟨-, hc⟩, -⟩ := hcond
        subst hc
        simp at h0
      | (k + 3) =>
        intro h0 h1 h2
        rw [getElem?_cons3] at h0
        rw [show k + 3 + 1 = (k + 1) + 3 by omega, getElem?_cons3] at h1
        rw [show k + 3 + 2 = (k + 2) + 3 by omega, getElem?_cons3] at h2
        exact ih false k ⟨h0, h1, h2⟩
    · rw [if_neg hcond] at h0 h1 h2
      revert h0 h1 h2
      match j with
      | 0 =>
        intro h0 h1 h2
        simp only [List.getElem?_cons_zero, Option.some.injEq] at h0
        subst h0
        rw [getElem?_cons1] at h1
        rw [show (0 : Nat) + 2 = 1 + 1 from rfl, getElem?_cons1] at h2
        rw [show (('\n' : Char) == '\n') = true from by decide] at h1 h2
        exact subHash_true_head rest ⟨h1, h2⟩
      | (k + 1) =>
        intro h0 h1 h2
        rw [getElem?_cons1] at h0
        rw [getElem?_cons1] at h1
        rw [show k + 1 + 2 = (k + 2) + 1 by omega, getElem?_cons1] at h2
        exact ih (c == '\n') k ⟨h0, h1, h2⟩

theorem subHash_no_boundary (b : List Char) (j : Nat)
    (hj : j = 0 ∨ (subHash true b)[j - 1]? = some '\n')
    (hh : (subHash true b)[j]? = some '#')
    (hs : (subHash true b)[j + 1]? = some ' ') : False := by
  rcases hj with rfl | hnl
  · exact subHash_true_head b ⟨hh, hs⟩
  · match j, hnl, hh, hs with
    | 0, hnl, hh, hs => exact subHash_true_head b ⟨hh, hs⟩
    | (k + 1), hnl, hh, hs =>
      have hnl' : (subHash true b)[k]? = some '\n' := hnl
      exact subHash_no_nlhash b true k ⟨hnl', hh, hs⟩

/-! ### Locating each rewritten block inside the neutralized text -/

theorem spansAuxN_cons (pos : Nat) (sg : Bool × List Char)
    (rest : List (Bool × List Char)) :
    spansAuxN pos (sg :: rest) =
      if sg.1 then
        (pos, pos + (processSeg sg).length) ::
          spansAuxN (pos + (processSeg sg).length) rest
      else spansAuxN (pos + (processSeg sg).length) rest := rfl

theorem spansAuxN_struct : ∀ (segs : List (Bool × List Char)) (pos : Nat)
    (sp : Nat × Nat), sp ∈ spansAuxN pos segs →
    ∃ pre b post,
      ((segs.map processSeg).flatten) = pre ++ subHash true b ++ post ∧
      sp.1 = pos + pre.length ∧ sp.2 = sp.1 + (subHash true b).length ∧
      (true, b) ∈ segs := by
  intro segs
  induction segs with
  | nil =>
    intro pos sp h
    simp [spansAuxN] at h
  | cons sg rest ih =>
    intro pos sp hmem
    rw [spansAuxN_cons] at hmem
    by_cases hb : sg.1 = true
    · rw [if_pos hb] at hmem
      rcases List.mem_cons.1 hmem with rfl | hmem'
      · refine ⟨[], sg.2, (rest.map processSeg).flatten, ?_, by simp, ?_, ?_⟩
        · simp only [List.map_cons, List.flatten_cons, List.nil_append]
          rw [processSeg, if_pos hb]
        · simp [processSeg, hb]
        · have hsg : sg = (true, sg.2) := by
            cases sg
            simp_all
          rw [← hsg]
          exact List.mem_cons_self sg rest
      · obtain ⟨pre', b, post', he, h1, h2, hm⟩ :=
          ih (pos + (processSeg sg).length) sp hmem'
        refine ⟨processSeg sg ++ pre', b, post', ?_, ?_, h2,
          List.mem_cons_of_mem _ hm⟩
        · simp only [List.map_cons, List.flatten_cons, he,
            List.append_assoc]
        · rw [h1, List.length_append]
          omega
    · rw [if_neg hb] at hmem
      obtain ⟨pre', b, post', he, h1, h2, hm⟩ :=
        ih (pos + (processSeg sg).length) sp hmem
      refine ⟨processSeg sg ++ pre', b, post', ?_, ?_, h2,
        List.mem_cons_of_mem _ hm⟩
      · simp only [List.map_cons, List.flatten_cons, he, List.append_assoc]
      · rw [h1, List.length_append]
        omega

/-- Claim C2: with well-formed fences, no header-pattern match of the
neutralized text starts inside a fence block, so no returned page's title
is taken from a line inside a fenced code block; and the returned titles
are exactly the stripped title captures of the matches, in order. -/
theorem claim_C2 (content : List Char)
    (_hwf : wellFormedFences content = true) :
    (∀ p ∈ hdrStarts (neutralize_code_block_headers content),
      ∀ sp ∈ blockSpansN content, ¬(sp.1 ≤ p ∧ p < sp.2)) ∧
      (split_with_header_pattern content).map Page.title =
        (hdrStarts (neutralize_code_block_headers content)).map
          (fun p => stripL
            (restLine (neutralize_code_block_headers content) (p + 2))) := by
  constructor
  · intro p hp sp hsp hin
    obtain ⟨hle, hlt⟩ := hin
    obtain ⟨hplen, hpB⟩ := hdrStarts_mem hp
    obtain ⟨hh, hsp'⟩ := isBStart_hash hpB
    obtain ⟨pre, b, post, he, h1, h2, hmseg⟩ :=
      spansAuxN_struct (fenceSplit content) 0 sp hsp
    obtain ⟨⟨mid, hmid0⟩, hlast0⟩ :=
      block_shape content.length content (true, b) hmseg rfl
    have hmid : b = btick :: mid := hmid0
    have hlast : b.getLast? = some btick := hlast0
    have hs : neutralize_code_block_headers content =
        pre ++ (subHash true b ++ post) := by
      rw [neutralize_code_block_headers, he, List.append_assoc]
    have hj0 : sp.1 = pre.length := by
      rw [h1]
      omega
    have hlookup : ∀ i, sp.1 ≤ i → i < sp.2 →
        (neutralize_code_block_headers content)[i]? =
          (subHash true b)[i - pre.length]? := by
      intro i hi1 hi2
      rw [hs, List.getElem?_append_right (by omega : pre.length ≤ i),
        List.getElem?_append, if_pos (by omega)]
    by_cases hp0 : p = sp.1
    · have hl0 : (neutralize_code_block_headers content)[p]? =
          (subHash true b)[0]? := by
        rw [hlookup p hle hlt, hp0, hj0]
        simp
      have hnb0 : (subHash true b)[0]? = some btick := by
        rw [hmid, subHash_cons]
        have hcf : (true && (btick == '#') && (mid.head? == some ' '))
            = false := by
          simp [show (btick == '#') = false from by decide]
        rw [hcf]
        simp
      rw [hh, hnb0] at hl0
      exact absurd hl0 (by decide)
    · have hppos : sp.1 < p := lt_of_le_of_ne hle (Ne.symm hp0)
      have hnbj : (subHash true b)[p - pre.length]? = some '#' := by
        have hl := hlookup p hle hlt
        rw [hh] at hl
        exact hl.symm
      have hnl : (neutralize_code_block_headers content)[p - 1]? =
          some '\n' := isBStart_nl hpB (by omega)
      have hnbj1 : (subHash true b)[p - pre.length - 1]? = some '\n' := by
        have hl := hlookup (p - 1) (by omega) (by omega)
        rw [hnl] at hl
        rw [show p - 1 - pre.length = p - pre.length - 1 by omega] at hl
        exact hl.symm
      by_cases hjlast : p - pre.length + 1 < (subHash true b).length
      · have hnbj2 : (subHash true b)[p - pre.length + 1]? = some ' ' := by
          have hl := hlookup (p + 1) (by omega) (by omega)
          rw [hsp'] at hl
          rw [show p + 1 - pre.length = p - pre.length + 1 by omega] at hl
          exact hl.symm
        exact subHash_no_boundary b (p - pre.length)
          (Or.inr hnbj1) hnbj hnbj2
      · have hjeq : p - pre.length = (subHash true b).length - 1 := by
          omega
        have hlast2 : (subHash true b).getLast? = some btick := by
          rw [subHash_getLast b true
            (by rw [hmid]; exact List.cons_ne_nil _ _)]
          exact hlast
        rw [List.getLast?_eq_getElem?, ← hjeq, hnbj] at hlast2
        exact absurd hlast2 (by decide)
  · rw [split_with_header_pattern, splitHeaderCore, List.map_map, pairsOf]
    have hlen : (hdrStarts (neutralize_code_block_headers content)).length ≤
        ((hdrStarts (neutralize_code_block_headers content)).drop 1 ++
          [(neutralize_code_block_headers content).length]).length := by
      rw [List.length_append, List.length_drop]
      simp only [List.length_cons, List.length_nil]
      omega
    rw [show (Page.title ∘ mkPageB (neutralize_code_block_headers content))
        = ((fun p => stripL
            (restLine (neutralize_code_block_headers content) (p + 2))) ∘
          Prod.fst) from rfl]
    rw [← List.map_map, List.map_fst_zip _ _ hlen]

/-- Witness for C2: the specification's Strategy B example, a fenced block
containing `# code` followed by a real header outside the fence. -/
theorem claim_C2_witness :
    (wellFormedFences ("```\n# code\n```\n# Real\nx".toList) = true) ∧
      ((∀ p ∈ hdrStarts
          (neutralize_code_block_headers ("```\n# code\n```\n# Real\nx".toList)),
        ∀ sp ∈ blockSpansN ("```\n# code\n```\n# Real\nx".toList),
          ¬(sp.1 ≤ p ∧ p < sp.2)) ∧
        (split_with_header_pattern ("```\n# code\n```\n# Real\nx".toList)).map
            Page.title =
          (hdrStarts (neutralize_code_block_headers
              ("```\n# code\n```\n# Real\nx".toList))).map
            (fun p => stripL
              (restLine (neutralize_code_block_headers
                ("```\n# code\n```\n# Real\nx".toList)) (p + 2)))) :=
  ⟨by decide, claim_C2 ("```\n# code\n```\n# Real\nx".toList) (by decide)⟩
